import Mathlib

/-!
Verification of the mhe931/tictactoe repository against its specification.

The Python sources are shallowly embedded: the mutable 9-cell board becomes a
`List Cell` threaded explicitly through every operation that mutates it, Python
floats used for Q-values become `ℚ`, and fallible operations return `Option` /
`Except`.  Every definition transcribes the corresponding Python function from
the repository (file and function named in its doc comment).
-/

namespace TicTacToeRepo

/-- A board cell: `X`, `O`, or the digit placeholder `str(n)` that marks an
empty cell in both `common.py` and `tictac.py` (`Board.__init__` fills the list
with the strings "1".."9"). `E n` models the one-character digit string. -/
inductive Cell where
  | X : Cell
  | O : Cell
  | E : Nat → Cell
deriving DecidableEq, Repr

/-- `cell in ['X', 'O']` — the membership test both files use to recognise an
occupied cell. -/
def Cell.isMarker : Cell → Bool
  | .X => true
  | .O => true
  | .E _ => false

/-- The Python board: a list of 9 cells.  (Both `common.Board` and
`tictac.TicTacToe` hold `self.board` as a 9-element list of one-char strings.) -/
abbrev Board := List Cell

/-- `self.board[i]` — all source indexing is within 0..8 on the 9-cell list, so
the `getD` default is never consulted on boards of length 9. -/
def cellAt (b : Board) (i : Nat) : Cell := b.getD i (Cell.E 0)

/-- `common.py Board.__init__` / `tictac.py TicTacToe.__init__`:
`[str(i) for i in range(1, 10)]`. -/
def initBoard : Board :=
  [Cell.E 1, Cell.E 2, Cell.E 3, Cell.E 4, Cell.E 5, Cell.E 6, Cell.E 7, Cell.E 8, Cell.E 9]

/-- The 8 winning lines.  `common.py Board.check_winner` (`lines`) and
`tictac.py TicTacToe.__init__` (`winning_combinations`) list exactly the same
triples in the same order. -/
def winLines : List (Nat × Nat × Nat) :=
  [(0,1,2), (3,4,5), (6,7,8), (0,3,6), (1,4,7), (2,5,8), (0,4,8), (2,4,6)]

/-! ## common.py : Board -/

/-- `common.py Board.is_valid_move` (0-based):
`0 <= position < 9 and self.board[position] not in ['X','O']`. -/
def isValidMove (b : Board) (position : Int) : Bool :=
  decide (0 ≤ position) && decide (position < 9) && !(cellAt b position.toNat).isMarker

/-- `common.py Board.make_move` (1-based position): converts to 0-based, then
either places the symbol (returning `true` and the mutated board) or leaves the
board untouched (returning `false`). -/
def makeMove (b : Board) (position : Int) (symbol : Cell) : Bool × Board :=
  let pos : Int := position - 1
  if isValidMove b pos then (true, b.set pos.toNat symbol) else (false, b)

/-- `common.py Board.get_valid_moves`: `[i+1 for i in range(9) if ...]`,
1-based positions of the empty cells, ascending. -/
def getValidMoves (b : Board) : List Int :=
  ((List.range 9).filter (fun i => !(cellAt b i).isMarker)).map (fun i => (i : Int) + 1)

/-- Game outcome, `common.py GameState`. -/
inductive GameState where
  | ONGOING : GameState
  | X_WINS : GameState
  | O_WINS : GameState
  | DRAW : GameState
deriving DecidableEq, Repr

/-- The `for line in lines` scan inside `common.py Board.check_winner`: the
first line whose three cells are equal AND hold `X` (resp. `O`) decides the
result; a line of three equal non-marker cells falls through to the next line. -/
def scanLines (b : Board) : List (Nat × Nat × Nat) → Option GameState
  | [] => none
  | (i, j, k) :: rest =>
    if cellAt b i = cellAt b j ∧ cellAt b j = cellAt b k then
      if cellAt b i = Cell.X then some GameState.X_WINS
      else if cellAt b i = Cell.O then some GameState.O_WINS
      else scanLines b rest
    else scanLines b rest

/-- `tictac.py TicTacToe.is_board_full` and the draw test of
`common.py Board.check_winner`: `all(cell in ['X','O'] for cell in self.board)`. -/
def isBoardFull (b : Board) : Bool := b.all Cell.isMarker

/-- `common.py Board.check_winner`. -/
def checkWinner (b : Board) : GameState :=
  match scanLines b winLines with
  | some g => g
  | none => if isBoardFull b then GameState.DRAW else GameState.ONGOING

/-- The one-character string stored in a cell, as a `Char`
(`str(n)` for a digit placeholder: `Nat.digitChar` agrees with Python `str`
on 1..9). -/
def cellChar : Cell → Char
  | Cell.X => 'X'
  | Cell.O => 'O'
  | Cell.E n => Nat.digitChar n

/-- `common.py Board.get_state_key`: `''.join(self.board)`, as a char list. -/
def getStateKey (b : Board) : List Char := b.map cellChar

/-- One `(state, action, reward, next_state, done)` tuple passed to
`rl_observer.learn` by `common.py play_game`. -/
abbrev LearnCall := List Char × Int × Int × List Char × Bool

instance : DecidableEq (List LearnCall) := fun a b => instDecidableEqList a b

/-- `common.py play_game`, with fuel for the unbounded `while True` loop:
returns `none` when the fuel runs out before the game ends, otherwise the
outcome, the recorded `moves_history`, the list of `learn` invocations issued
at the end, and the final board.  A move provider returning `none` models both
Python `move is None` and a provider that raises (the `except` clause
line 139 also just re-prompts the same player). -/
def playGameAux (p1 p2 : Board → Option Int) (obs : Bool) :
    Nat → Board → Cell → List (List Char × Int) →
    Option (GameState × List (List Char × Int) × List LearnCall × Board)
  | 0, _, _, _ => none
  | fuel + 1, b, cur, hist =>
    match (if cur = Cell.X then p1 b else p2 b) with
    | none => playGameAux p1 p2 obs fuel b cur hist
    | some move =>
      let r := makeMove b move cur
      if r.1 then
        let b' := r.2
        let hist' := if obs then hist ++ [(getStateKey b', move - 1)] else hist
        match checkWinner b' with
        | GameState.ONGOING =>
          playGameAux p1 p2 obs fuel b' (if cur = Cell.X then Cell.O else Cell.X) hist'
        | gs =>
          let reward : Int := if gs = GameState.DRAW then 0 else 1
          let calls : List LearnCall :=
            if obs ∧ hist' ≠ [] then
              hist'.map (fun sa => (sa.1, sa.2, reward, getStateKey b', true))
            else []
          some (gs, hist', calls, b')
      else
        playGameAux p1 p2 obs fuel r.2 cur hist

/-! ## tictac.py : TicTacToe (minimax search engine)

The Python methods mutate `self.board` in place; the embedding threads the
board explicitly, so every function that touches the board also returns the
board it leaves behind.  Scores are Python ints except for the
`float('-inf')` / `float('inf')` sentinels; every score the search produces
lies in `[-106, 106]`, so the sentinels are modelled by the integers
`±1000000`, which compare with all reachable scores exactly as the infinities
do. -/

/-- `float('-inf')` sentinel (see section comment). -/
def negInf : Int := -1000000

/-- `float('inf')` sentinel (see section comment). -/
def posInf : Int := 1000000

/-- `tictac.py TicTacToe.get_valid_moves` (0-based):
`[i for i, spot in enumerate(self.board) if spot not in ['X','O']]`;
the board is the fixed 9-cell list, so `enumerate` ranges over 0..8. -/
def getValidMovesT (b : Board) : List Nat :=
  (List.range 9).filter (fun i => !(cellAt b i).isMarker)

/-- `tictac.py TicTacToe.is_winner`:
`any(all(self.board[i] == player for i in combo) for combo in winning_combinations)`. -/
def isWinner (b : Board) (player : Cell) : Bool :=
  winLines.any (fun l =>
    cellAt b l.1 = player ∧ cellAt b l.2.1 = player ∧ cellAt b l.2.2 = player)

/-- `tictac.py TicTacToe.__init__`: `position_weights`. -/
def positionWeights : List Nat := [3, 2, 3, 2, 4, 2, 3, 2, 3]

/-- `self.position_weights[x]`. -/
def weight (i : Nat) : Nat := positionWeights.getD i 0

/-- The weight-sum loop of `tictac.py TicTacToe.evaluate_position`
(`for i, mark in enumerate(self.board): ...` over the 9-cell board). -/
def scoreSum (b : Board) : Int :=
  ((List.range 9).map (fun i =>
    match cellAt b i with
    | Cell.O => (weight i : Int)
    | Cell.X => -(weight i : Int)
    | Cell.E _ => 0)).sum

/-- `tictac.py TicTacToe.evaluate_position`. -/
def evaluatePosition (b : Board) (depth : Nat) : Int :=
  if isWinner b Cell.O then 100 + depth
  else if isWinner b Cell.X then -(100 + (depth : Int))
  else if isBoardFull b then 0
  else scoreSum b

/-- The `for move in ...` loop of `tictac.py TicTacToe.get_winning_move`:
saves the cell, places the mark, tests for a win, and restores the cell on
both exits. -/
def getWinningMoveAux (player : Cell) : List Nat → Board → Option Nat × Board
  | [], b => (none, b)
  | m :: rest, b =>
    let temp := cellAt b m
    let b1 := b.set m player
    if isWinner b1 player then (some m, b1.set m temp)
    else getWinningMoveAux player rest (b1.set m temp)

/-- `tictac.py TicTacToe.get_winning_move` (the move list
`self.get_valid_moves()` is computed once, before the loop). -/
def getWinningMove (b : Board) (player : Cell) : Option Nat × Board :=
  getWinningMoveAux player (getValidMovesT b) b

/-- Insertion step of a stable ascending sort by `weight`:
the inserted element goes after every element with a key `≤` its own, which is
exactly where Python's stable `list.sort(key=...)` keeps it. -/
def insertAsc (x : Nat) : List Nat → List Nat
  | [] => [x]
  | y :: ys => if weight x ≥ weight y then y :: insertAsc x ys else x :: y :: ys

/-- Insertion step of a stable descending sort by `weight`
(Python `list.sort(key=..., reverse=True)` keeps equal keys in original
order, it does not reverse them). -/
def insertDesc (x : Nat) : List Nat → List Nat
  | [] => [x]
  | y :: ys => if weight x ≤ weight y then y :: insertDesc x ys else x :: y :: ys

/-- `valid_moves.sort(key=lambda x: self.position_weights[x], reverse=is_maximizing)`
in `tictac.py TicTacToe.minimax`.  A stable sort under a total preorder has a
unique result, so this stable insertion sort computes exactly the list Python's
Timsort produces. -/
def sortMoves (ms : List Nat) (isMaximizing : Bool) : List Nat :=
  if isMaximizing then ms.foldl (fun acc x => insertDesc x acc) []
  else ms.foldl (fun acc x => insertAsc x acc) []

/-- The maximizing `for move in valid_moves` loop of
`tictac.py TicTacToe.minimax`: place `'O'`, recurse (the `child` argument is
the depth-1 search), undo, update `max_eval` / `best_move`, raise `alpha`, and
break out on `beta <= alpha`. -/
def searchMax (child : Board → Int → Int → (Int × Option Nat) × Board) :
    List Nat → Board → Int → Int → Int → Option Nat → (Int × Option Nat) × Board
  | [], b, _, _, maxEval, best => ((maxEval, best), b)
  | m :: rest, b, alpha, beta, maxEval, best =>
    let temp := cellAt b m
    let res := child (b.set m Cell.O) alpha beta
    let evalScore := res.1.1
    let b3 := res.2.set m temp
    let maxEval' := if evalScore > maxEval then evalScore else maxEval
    let best' := if evalScore > maxEval then some m else best
    let alpha' := max alpha evalScore
    if beta ≤ alpha' then ((maxEval', best'), b3)
    else searchMax child rest b3 alpha' beta maxEval' best'

/-- The minimizing loop of `tictac.py TicTacToe.minimax`: place `'X'`,
recurse, undo, update `min_eval` / `best_move`, lower `beta`, break on
`beta <= alpha`. -/
def searchMin (child : Board → Int → Int → (Int × Option Nat) × Board) :
    List Nat → Board → Int → Int → Int → Option Nat → (Int × Option Nat) × Board
  | [], b, _, _, minEval, best => ((minEval, best), b)
  | m :: rest, b, alpha, beta, minEval, best =>
    let temp := cellAt b m
    let res := child (b.set m Cell.X) alpha beta
    let evalScore := res.1.1
    let b3 := res.2.set m temp
    let minEval' := if evalScore < minEval then evalScore else minEval
    let best' := if evalScore < minEval then some m else best
    let beta' := min beta evalScore
    if beta' ≤ alpha then ((minEval', best'), b3)
    else searchMin child rest b3 alpha beta' minEval' best'

/-- `tictac.py TicTacToe.minimax`: immediate win/block short-circuit, terminal
checks, depth cutoff, then the sorted alpha-beta loop. -/
def minimax (depth : Nat) (b0 : Board) (alpha beta : Int) (isMaximizing : Bool) :
    (Int × Option Nat) × Board :=
  match (if isMaximizing then getWinningMove b0 Cell.O else getWinningMove b0 Cell.X) with
  | (some m, b) =>
    ((if isMaximizing then (100 + depth : Int) else -(100 + (depth : Int)), some m), b)
  | (none, b) =>
    if isWinner b Cell.O then ((100 + depth, none), b)
    else if isWinner b Cell.X then ((-(100 + (depth : Int)), none), b)
    else if isBoardFull b then ((0, none), b)
    else
      match depth with
      | 0 => ((evaluatePosition b 0, none), b)
      | d + 1 =>
        let moves := sortMoves (getValidMovesT b) isMaximizing
        if isMaximizing then
          searchMax (fun bb a bt => minimax d bb a bt false) moves b alpha beta negInf none
        else
          searchMin (fun bb a bt => minimax d bb a bt true) moves b alpha beta posInf none

/-- `tictac.py TicTacToe.get_ai_move`:
`_, best_move = self.minimax(6, float('-inf'), float('inf'), True)`.
Also returns the board the search leaves behind. -/
def getAiMove (b : Board) : Option Nat × Board :=
  let r := minimax 6 b negInf posInf true
  (r.1.2, r.2)

/-! ## rl_agent.py : RLAgent -/

/-- The sparse Q-table `defaultdict(float)`: a total function on
`(state key, 0-based action)` whose value at absent keys is the default `0`. -/
abbrev QTable := List Char × Int → ℚ

/-- `rl_agent.py RLAgent` state relevant to learning: the hyperparameters, the
Q-table and the periodic-save counter (the file write in `save_q_table` is
I/O outside the embedding; only the counter logic is modelled). -/
structure Agent where
  lr : ℚ
  gamma : ℚ
  epsilon : ℚ
  q : QTable
  saveCounter : Nat

/-- `[i for i, char in enumerate(next_state) if char == ' ']` from
`rl_agent.py RLAgent.learn`, accumulating `enumerate` indices from `i0`. -/
def spacePositions : List Char → Nat → List Nat
  | [], _ => []
  | c :: rest, i => if c = ' ' then i :: spacePositions rest (i + 1) else spacePositions rest (i + 1)

/-- The `empty_positions` list of `rl_agent.py RLAgent.learn`. -/
def emptyPositions (nextState : List Char) : List Nat := spacePositions nextState 0

/-- Python `max` over a nonempty list (`max(next_values)`); returns 0 on `[]`,
a case the source guards against. -/
def listMax : List ℚ → ℚ
  | [] => 0
  | x :: rest => rest.foldl max x

/-- `rl_agent.py RLAgent.learn`: the one-step Q-learning update, including the
save-counter bookkeeping (`save_q_table` itself is I/O and not modelled). -/
def learn (ag : Agent) (state : List Char) (action : Int) (reward : ℚ)
    (nextState : List Char) (done : Bool) : Agent :=
  let currentQ := ag.q (state, action)
  let newQ :=
    if done then currentQ + ag.lr * (reward - currentQ)
    else
      let empties := emptyPositions nextState
      let nextMax : ℚ :=
        if empties ≠ [] then
          let nextValues := empties.map (fun m => ag.q (nextState, (m : Int)))
          if nextValues ≠ [] then listMax nextValues else 0
        else 0
      currentQ + ag.lr * (reward + ag.gamma * nextMax - currentQ)
  { ag with
    q := fun key => if key = (state, action) then newQ else ag.q key
    saveCounter := if ag.saveCounter + 1 ≥ 5000 then 0 else ag.saveCounter + 1 }

/-- Stated from the spec, for comparison with `learn` (claim C1): the actions
valid in a serialized state are the positions whose cell is empty, i.e. whose
serialized character is not one of the markers `'X'`, `'O'`
(`Board.get_state_key` writes an empty cell as its digit placeholder). -/
def specEmptyPositions : List Char → Nat → List Nat
  | [], _ => []
  | c :: rest, i =>
    if c ≠ 'X' ∧ c ≠ 'O' then i :: specEmptyPositions rest (i + 1)
    else specEmptyPositions rest (i + 1)

/-- Stated from the spec (claim C1): `max_{a' valid in nextState} Q(nextState, a')`,
0 when no cell of `nextState` is empty. -/
def specNextMax (q : QTable) (nextState : List Char) : ℚ :=
  let empties := specEmptyPositions nextState 0
  if empties ≠ [] then listMax (empties.map (fun m => q (nextState, (m : Int)))) else 0

/-- Stated from the spec (claim C1): the claimed non-terminal update
`Q(s,a) + alpha * (reward + gamma * next_max - Q(s,a))`. -/
def specLearnValue (ag : Agent) (state : List Char) (action : Int) (reward : ℚ)
    (nextState : List Char) : ℚ :=
  ag.q (state, action) +
    ag.lr * (reward + ag.gamma * specNextMax ag.q nextState - ag.q (state, action))

/-! ### rl_agent.py : persistence (load paths)

`pickle` and the filesystem are I/O collaborators; they are modelled by the
outcome they deliver to the loading code: whether the file exists, and whether
unpickling (plus, for the agent bundle, the dictionary accesses
`state['q_table']` etc.) succeeds.  A failure of any of those steps lands in
the `except` clause of the source. -/

/-- A pickled Q-table, as the finite association list the dict holds. -/
abbrev QTableData := List ((List Char × Int) × ℚ)

/-- `defaultdict(float, loaded_table)`: lookup with default `0`. -/
def tableToQ (tbl : QTableData) : QTable := fun key =>
  match tbl.find? (fun e => e.1 = key) with
  | some e => e.2
  | none => 0

/-- Diagnostics printed by the load paths of `rl_agent.py`. -/
inductive LoadDiag where
  | loadedTable : LoadDiag        -- "Loaded Q-table with ... pairs"
  | errorLoadingTable : LoadDiag  -- "Error loading Q-table: ..."
  | noExistingTable : LoadDiag    -- "No existing Q-table found. Starting fresh."
  | agentLoaded : LoadDiag        -- "Agent loaded successfully ..."
  | errorLoadingAgent : LoadDiag  -- "Error loading agent: ..."
deriving DecidableEq, Repr

/-- `rl_agent.py RLAgent.load_q_table`: `fileExists` models
`os.path.exists(filename)`; `parsed` is `some tbl` when `pickle.load`
delivers a table and `none` when it raises.  Returns the agent's new Q-table
and the diagnostic printed; no path raises to the caller. -/
def loadQTable (fileExists : Bool) (parsed : Option QTableData) : QTable × LoadDiag :=
  if fileExists then
    match parsed with
    | some tbl => (tableToQ tbl, LoadDiag.loadedTable)
    | none => (fun _ => 0, LoadDiag.errorLoadingTable)
  else (fun _ => 0, LoadDiag.noExistingTable)

/-- A pickled agent bundle `{'q_table': ..., 'lr': ..., 'gamma': ..., 'epsilon': ...}`. -/
structure AgentData where
  qTable : QTableData
  lr : ℚ
  gamma : ℚ
  epsilon : ℚ

/-- `rl_agent.py RLAgent.load`: `parsedAgent` is `some` when `pickle.load` and
the four dictionary accesses all succeed, `none` when any of them raises (all
are inside the one `try`).  On failure it prints a diagnostic and falls back
to `load_q_table` (taking that path's outcome as arguments); no path raises. -/
def loadAgent (ag : Agent) (parsedAgent : Option AgentData)
    (qtExists : Bool) (qtParsed : Option QTableData) : Agent × List LoadDiag :=
  match parsedAgent with
  | some d =>
    ({ ag with q := tableToQ d.qTable, lr := d.lr, gamma := d.gamma, epsilon := d.epsilon },
      [LoadDiag.agentLoaded])
  | none =>
    let r := loadQTable qtExists qtParsed
    ({ ag with q := r.1 }, [LoadDiag.errorLoadingAgent, r.2])

/-! ## play.py / human_vs_tictoc.py : the TicToc move-provider adapters -/

/-- The attributes class `TicTacToe` defines (`tictac.py`, source order). -/
def ticTacToeAttributes : List String :=
  ["board", "winning_combinations", "position_weights", "make_move",
   "is_valid_move", "get_valid_moves", "is_winner", "is_board_full",
   "evaluate_position", "get_winning_move", "minimax", "get_ai_move",
   "display_board"]

/-- Python attribute resolution on a `TicTacToe` instance, as far as the
adapters exercise it. -/
def ticTacToeHasAttr (name : String) : Bool := ticTacToeAttributes.contains name

/-- `play.py get_tictoc_move`: builds `board_2d` and calls
`tictoc.get_best_move(board_2d)`.  Python resolves the attribute
`get_best_move` before any call happens; `tictac.py` defines no such method,
so the lookup raises `AttributeError` (the `then` branch is dead code: there
is no method body in the repository to model behind it). -/
def getTictocMovePlay (_board : Board) : Except String Int :=
  if ticTacToeHasAttr "get_best_move" then
    Except.error "unreachable: tictac.py defines no get_best_move"
  else
    Except.error "AttributeError: TicTacToe object has no attribute get_best_move"

/-- `human_vs_tictoc.py get_tictoc_move`: textually identical adapter with the
same missing-attribute call. -/
def getTictocMoveHvt (_board : Board) : Except String Int :=
  if ticTacToeHasAttr "get_best_move" then
    Except.error "unreachable: tictac.py defines no get_best_move"
  else
    Except.error "AttributeError: TicTacToe object has no attribute get_best_move"

/-! ## Reachable boards

A board is reachable when it arises from `initBoard` by alternating valid
moves of `play_game` (`common.py`): the loop applies a move only while
`check_winner` still reports `ONGOING`, and flips the side after every
applied move. -/

/-- Boards reachable in `common.py play_game`, together with the side to move. -/
inductive Reachable : Board → Cell → Prop where
  | init : Reachable initBoard Cell.X
  | step (b : Board) (p : Cell) (m : Int) (hr : Reachable b p)
      (hgs : checkWinner b = GameState.ONGOING) (hmv : (makeMove b m p).1 = true) :
      Reachable (makeMove b m p).2 (if p = Cell.X then Cell.O else Cell.X)

/-! ## Helper lemmas : board cells -/

lemma cellAt_set_ne (b : Board) (i j : Nat) (x : Cell) (h : i ≠ j) :
    cellAt (b.set i x) j = cellAt b j := by
  induction b generalizing i j with
  | nil => rfl
  | cons hd tl ih =>
    cases i with
    | zero =>
      cases j with
      | zero => exact absurd rfl h
      | succ j => rfl
    | succ i =>
      cases j with
      | zero => rfl
      | succ j => exact ih i j (by omega)

lemma cellAt_set_self (b : Board) (i : Nat) (x : Cell) (h : i < b.length) :
    cellAt (b.set i x) i = x := by
  induction b generalizing i with
  | nil => simp at h
  | cons hd tl ih =>
    cases i with
    | zero => rfl
    | succ i => exact ih i (by simp at h; omega)

lemma set_set_cellAt (b : Board) (i : Nat) (x : Cell) :
    (b.set i x).set i (cellAt b i) = b := by
  induction b generalizing i with
  | nil => rfl
  | cons hd tl ih =>
    cases i with
    | zero => rfl
    | succ i =>
      show hd :: (tl.set i x).set i (cellAt tl i) = hd :: tl
      rw [ih]

lemma mem_getValidMovesT {b : Board} {m : Nat} :
    m ∈ getValidMovesT b ↔ m < 9 ∧ (cellAt b m).isMarker = false := by
  simp [getValidMovesT, List.mem_filter, List.mem_range]

/-- An occupied winning line survives any placement elsewhere and any
placement by the same side. -/
lemma isWinner_iff {b : Board} {p : Cell} :
    isWinner b p = true ↔
      ∃ l ∈ winLines, cellAt b l.1 = p ∧ cellAt b l.2.1 = p ∧ cellAt b l.2.2 = p := by
  simp [isWinner, List.any_eq_true]

/-! ## Helper lemmas : get_winning_move -/

lemma getWinningMoveAux_board (p : Cell) (ms : List Nat) (b : Board) :
    (getWinningMoveAux p ms b).2 = b := by
  induction ms generalizing b with
  | nil => rfl
  | cons m rest ih =>
    show (if isWinner (b.set m p) p then (some m, (b.set m p).set m (cellAt b m))
          else getWinningMoveAux p rest ((b.set m p).set m (cellAt b m))).2 = b
    rw [set_set_cellAt]
    split
    · rfl
    · exact ih b

lemma getWinningMoveAux_eq (p : Cell) (ms : List Nat) (b : Board) :
    getWinningMoveAux p ms b =
      (match ms.find? (fun m => isWinner (b.set m p) p) with
       | some m => some m
       | none => none, b) := by
  induction ms generalizing b with
  | nil => rfl
  | cons m rest ih =>
    show (if isWinner (b.set m p) p then (some m, (b.set m p).set m (cellAt b m))
          else getWinningMoveAux p rest ((b.set m p).set m (cellAt b m))) = _
    rw [set_set_cellAt, List.find?]
    cases h : isWinner (b.set m p) p with
    | true => simp [h]
    | false => simp [h, ih b]

lemma getWinningMove_board (b : Board) (p : Cell) : (getWinningMove b p).2 = b :=
  getWinningMoveAux_board p (getValidMovesT b) b

lemma getWinningMove_none {b : Board} {p : Cell}
    (h : ∀ m ∈ getValidMovesT b, isWinner (b.set m p) p = false) :
    getWinningMove b p = (none, b) := by
  rw [getWinningMove, getWinningMoveAux_eq]
  rw [List.find?_eq_none.2 (by intro m hm; simp [h m hm])]

lemma getWinningMove_some {b : Board} {p : Cell} {m : Nat}
    (h : (getWinningMove b p).1 = some m) :
    m ∈ getValidMovesT b ∧ isWinner (b.set m p) p = true := by
  rw [getWinningMove, getWinningMoveAux_eq] at h
  simp only at h
  cases hf : (getValidMovesT b).find? (fun m => isWinner (b.set m p) p) with
  | none => rw [hf] at h; simp at h
  | some m' =>
    rw [hf] at h
    simp only [Option.some.injEq] at h
    subst h
    exact ⟨List.mem_of_find?_eq_some hf, by simpa using List.find?_some hf⟩

lemma getWinningMove_some_of_exists {b : Board} {p : Cell}
    (h : ∃ m ∈ getValidMovesT b, isWinner (b.set m p) p = true) :
    ∃ m, (getWinningMove b p).1 = some m := by
  rw [getWinningMove, getWinningMoveAux_eq]
  obtain ⟨m, hm, hw⟩ := h
  have : (getValidMovesT b).find? (fun m => isWinner (b.set m p) p) ≠ none := by
    intro hn
    have := List.find?_eq_none.1 hn m hm
    simp [hw] at this
  cases hf : (getValidMovesT b).find? (fun m => isWinner (b.set m p) p) with
  | none => exact absurd hf this
  | some m' => exact ⟨m', by simp [hf]⟩

/-! ## Helper lemmas : move sorting -/

lemma mem_insertAsc {x m : Nat} {l : List Nat} : m ∈ insertAsc x l ↔ m = x ∨ m ∈ l := by
  induction l with
  | nil => simp [insertAsc]
  | cons y ys ih =>
    show m ∈ (if weight x ≥ weight y then y :: insertAsc x ys else x :: y :: ys) ↔ _
    split
    · rw [List.mem_cons, ih, List.mem_cons]; tauto
    · exact List.mem_cons

lemma mem_insertDesc {x m : Nat} {l : List Nat} : m ∈ insertDesc x l ↔ m = x ∨ m ∈ l := by
  induction l with
  | nil => simp [insertDesc]
  | cons y ys ih =>
    show m ∈ (if weight x ≤ weight y then y :: insertDesc x ys else x :: y :: ys) ↔ _
    split
    · rw [List.mem_cons, ih, List.mem_cons]; tauto
    · exact List.mem_cons

lemma mem_foldl_insertDesc {m : Nat} : ∀ (l acc : List Nat),
    (m ∈ l.foldl (fun acc x => insertDesc x acc) acc ↔ m ∈ acc ∨ m ∈ l) := by
  intro l
  induction l with
  | nil => simp
  | cons x xs ih =>
    intro acc
    show m ∈ xs.foldl (fun acc x => insertDesc x acc) (insertDesc x acc) ↔ _
    rw [ih, mem_insertDesc]
    simp; tauto

lemma mem_foldl_insertAsc {m : Nat} : ∀ (l acc : List Nat),
    (m ∈ l.foldl (fun acc x => insertAsc x acc) acc ↔ m ∈ acc ∨ m ∈ l) := by
  intro l
  induction l with
  | nil => simp
  | cons x xs ih =>
    intro acc
    show m ∈ xs.foldl (fun acc x => insertAsc x acc) (insertAsc x acc) ↔ _
    rw [ih, mem_insertAsc]
    simp; tauto

lemma mem_sortMoves {m : Nat} {ms : List Nat} {mx : Bool} :
    m ∈ sortMoves ms mx ↔ m ∈ ms := by
  cases mx with
  | true => rw [sortMoves]; simp [mem_foldl_insertDesc ms []]
  | false => rw [sortMoves]; simp [mem_foldl_insertAsc ms []]

/-! ## Helper lemmas : the search loops restore the board -/

lemma searchMax_board {child : Board → Int → Int → (Int × Option Nat) × Board}
    (hpres : ∀ bb a bt, (child bb a bt).2 = bb) :
    ∀ (ms : List Nat) (b : Board) (alpha beta acc : Int) (best : Option Nat),
      (searchMax child ms b alpha beta acc best).2 = b := by
  intro ms
  induction ms with
  | nil => intro b alpha beta acc best; rfl
  | cons m rest ih =>
    intro b alpha beta acc best
    simp only [searchMax, hpres, set_set_cellAt]
    split
    · rfl
    · exact ih b _ beta _ _

lemma searchMin_board {child : Board → Int → Int → (Int × Option Nat) × Board}
    (hpres : ∀ bb a bt, (child bb a bt).2 = bb) :
    ∀ (ms : List Nat) (b : Board) (alpha beta acc : Int) (best : Option Nat),
      (searchMin child ms b alpha beta acc best).2 = b := by
  intro ms
  induction ms with
  | nil => intro b alpha beta acc best; rfl
  | cons m rest ih =>
    intro b alpha beta acc best
    simp only [searchMin, hpres, set_set_cellAt]
    split
    · rfl
    · exact ih b alpha _ _ _

lemma minimax_board : ∀ (d : Nat) (b : Board) (a bt : Int) (mx : Bool),
    (minimax d b a bt mx).2 = b := by
  intro d
  induction d with
  | zero =>
    intro b a bt mx
    rw [minimax]
    have hb1 : (if mx then getWinningMove b Cell.O else getWinningMove b Cell.X).2 = b := by
      cases mx <;> simp [getWinningMove_board]
    rcases hgw : (if mx then getWinningMove b Cell.O else getWinningMove b Cell.X) with ⟨o, b1⟩
    rw [hgw] at hb1
    simp only at hb1
    subst hb1
    cases o with
    | some m => rfl
    | none =>
      dsimp only
      split_ifs <;> rfl
  | succ d ih =>
    intro b a bt mx
    rw [minimax]
    have hb1 : (if mx then getWinningMove b Cell.O else getWinningMove b Cell.X).2 = b := by
      cases mx <;> simp [getWinningMove_board]
    rcases hgw : (if mx then getWinningMove b Cell.O else getWinningMove b Cell.X) with ⟨o, b1⟩
    rw [hgw] at hb1
    simp only at hb1
    subst hb1
    cases o with
    | some m => rfl
    | none =>
      dsimp only
      split_ifs <;>
        first
          | rfl
          | exact searchMax_board (fun bb a' bt' => ih bb a' bt' false) _ b1 a bt negInf none
          | exact searchMin_board (fun bb a' bt' => ih bb a' bt' true) _ b1 a bt posInf none

/-! ## Helper lemmas : returned moves come from the move list -/

lemma searchMax_best_mem {child : Board → Int → Int → (Int × Option Nat) × Board} :
    ∀ (ms : List Nat) (b : Board) (alpha beta acc : Int) (best : Option Nat) (m : Nat),
      (searchMax child ms b alpha beta acc best).1.2 = some m → m ∈ ms ∨ best = some m := by
  intro ms
  induction ms with
  | nil => intro b alpha beta acc best m h; exact Or.inr h
  | cons m0 rest ih =>
    intro b alpha beta acc best m h
    simp only [searchMax] at h
    split at h
    · simp only at h
      split at h
      · simp only [Option.some.injEq] at h; exact Or.inl (by simp [h])
      · exact Or.inr h
    · rcases ih _ _ _ _ _ _ h with hm | hm
      · exact Or.inl (List.mem_cons_of_mem _ hm)
      · split at hm
        · simp only [Option.some.injEq] at hm; exact Or.inl (by simp [hm])
        · exact Or.inr hm

lemma searchMin_best_mem {child : Board → Int → Int → (Int × Option Nat) × Board} :
    ∀ (ms : List Nat) (b : Board) (alpha beta acc : Int) (best : Option Nat) (m : Nat),
      (searchMin child ms b alpha beta acc best).1.2 = some m → m ∈ ms ∨ best = some m := by
  intro ms
  induction ms with
  | nil => intro b alpha beta acc best m h; exact Or.inr h
  | cons m0 rest ih =>
    intro b alpha beta acc best m h
    simp only [searchMin] at h
    split at h
    · simp only at h
      split at h
      · simp only [Option.some.injEq] at h; exact Or.inl (by simp [h])
      · exact Or.inr h
    · rcases ih _ _ _ _ _ _ h with hm | hm
      · exact Or.inl (List.mem_cons_of_mem _ hm)
      · split at hm
        · simp only [Option.some.injEq] at hm; exact Or.inl (by simp [hm])
        · exact Or.inr hm

lemma minimax_best_mem : ∀ (d : Nat) (b : Board) (a bt : Int) (mx : Bool) (m : Nat),
    (minimax d b a bt mx).1.2 = some m → m ∈ getValidMovesT b := by
  intro d b a bt mx m h
  rw [minimax] at h
  cases mx with
  | true =>
    rw [if_pos rfl] at h
    rcases hgw : getWinningMove b Cell.O with ⟨o, b1⟩
    rw [hgw] at h
    cases o with
    | some m0 =>
      simp only [Option.some.injEq] at h
      subst h
      exact (getWinningMove_some (by rw [hgw])).1
    | none =>
      have hb1 : b1 = b := by
        have := getWinningMove_board b Cell.O
        rw [hgw] at this
        exact this
      subst hb1
      dsimp only at h
      rcases d with _ | d
      · split_ifs at h <;> simp at h
      · split_ifs at h <;>
          first
            | (simp at h; done)
            | (rcases searchMax_best_mem _ _ _ _ _ _ _ h with hm | hm <;>
                first
                  | exact mem_sortMoves.1 hm
                  | simp at hm)
            | simp_all
  | false =>
    rw [if_neg (by simp)] at h
    rcases hgw : getWinningMove b Cell.X with ⟨o, b1⟩
    rw [hgw] at h
    cases o with
    | some m0 =>
      simp only [Option.some.injEq] at h
      subst h
      exact (getWinningMove_some (by rw [hgw])).1
    | none =>
      have hb1 : b1 = b := by
        have := getWinningMove_board b Cell.X
        rw [hgw] at this
        exact this
      subst hb1
      dsimp only at h
      rcases d with _ | d
      · split_ifs at h <;> simp at h
      · split_ifs at h <;>
          first
            | (simp at h; done)
            | (rcases searchMin_best_mem _ _ _ _ _ _ _ h with hm | hm <;>
                first
                  | exact mem_sortMoves.1 hm
                  | simp at hm)
            | simp_all

lemma minimax_no_moves {b : Board} (h : getValidMovesT b = []) (d : Nat) (a bt : Int) (mx : Bool) :
    (minimax d b a bt mx).1.2 = none := by
  rw [minimax]
  have hgw : ∀ p, getWinningMove b p = (none, b) := by
    intro p; rw [getWinningMove, h]; rfl
  cases mx with
  | true =>
    rw [if_pos rfl, hgw]
    dsimp only
    rcases d with _ | d
    · split_ifs <;> rfl
    · split_ifs <;>
        first
          | rfl
          | (rw [h]; rfl)
          | simp_all
  | false =>
    rw [if_neg (by simp), hgw]
    dsimp only
    rcases d with _ | d
    · split_ifs <;> rfl
    · split_ifs <;>
        first
          | rfl
          | (rw [h]; rfl)
          | simp_all

/-! ## Helper lemmas : score bounds -/

lemma weight_le_four (i : Nat) : weight i ≤ 4 := by
  rw [weight]
  by_cases h : i < 9
  · interval_cases i <;> decide
  · rw [List.getD_eq_default]
    · decide
    · simp only [positionWeights, List.length_cons, List.length_nil]
      omega

lemma sum_le_mul_length : ∀ (l : List Int) (c : Int), (∀ x ∈ l, x ≤ c) →
    l.sum ≤ c * l.length := by
  intro l c
  induction l with
  | nil => intro _; simp
  | cons x xs ih =>
    intro h
    have h1 := h x (List.mem_cons_self x xs)
    have h2 := ih (fun y hy => h y (List.mem_cons_of_mem _ hy))
    simp only [List.sum_cons, List.length_cons]
    push_cast
    linarith [h2]

lemma mul_length_le_sum : ∀ (l : List Int) (c : Int), (∀ x ∈ l, c ≤ x) →
    c * l.length ≤ l.sum := by
  intro l c
  induction l with
  | nil => intro _; simp
  | cons x xs ih =>
    intro h
    have h1 := h x (List.mem_cons_self x xs)
    have h2 := ih (fun y hy => h y (List.mem_cons_of_mem _ hy))
    simp only [List.sum_cons, List.length_cons]
    push_cast
    linarith [h2]

lemma scoreSum_bounds (b : Board) : -36 ≤ scoreSum b ∧ scoreSum b ≤ 36 := by
  rw [scoreSum]
  have hub : ∀ x ∈ (List.range 9).map (fun i =>
      match cellAt b i with
      | Cell.O => (weight i : Int)
      | Cell.X => -(weight i : Int)
      | Cell.E _ => 0), -4 ≤ x ∧ x ≤ 4 := by
    intro x hx
    rw [List.mem_map] at hx
    obtain ⟨i, _, hi⟩ := hx
    have hw := weight_le_four i
    have hwle : (weight i : Int) ≤ 4 := by exact_mod_cast hw
    have hwnn : (0 : Int) ≤ (weight i : Int) := Int.natCast_nonneg _
    subst hi
    rcases cellAt b i with _ | _ | n
    case X =>
      dsimp only
      constructor
      · show (-4 : Int) ≤ -(weight i : Int)
        linarith
      · show -(weight i : Int) ≤ (4 : Int)
        linarith
    case O =>
      dsimp only
      exact ⟨by linarith, hwle⟩
    case E =>
      dsimp only
      exact ⟨by norm_num, by norm_num⟩
  have hlen : ((List.range 9).map (fun i =>
      match cellAt b i with
      | Cell.O => (weight i : Int)
      | Cell.X => -(weight i : Int)
      | Cell.E _ => 0)).length = 9 := by simp
  constructor
  · have := mul_length_le_sum _ (-4) (fun x hx => (hub x hx).1)
    rw [hlen] at this
    push_cast at this
    linarith
  · have := sum_le_mul_length _ 4 (fun x hx => (hub x hx).2)
    rw [hlen] at this
    push_cast at this
    linarith

lemma evaluatePosition_zero_bounds (b : Board) :
    -100 ≤ evaluatePosition b 0 ∧ evaluatePosition b 0 ≤ 100 := by
  obtain ⟨hs1, hs2⟩ := scoreSum_bounds b
  rw [evaluatePosition]
  split_ifs
  · constructor <;> norm_num
  · constructor <;> norm_num
  · constructor <;> norm_num
  · constructor <;> linarith

/-! ## Helper lemmas : valid moves are nonempty on a non-full 9-cell board -/

lemma validMovesT_ne {b : Board} (hb : b.length = 9) (h : isBoardFull b = false) :
    getValidMovesT b ≠ [] := by
  rw [isBoardFull] at h
  have hex : ∃ x ∈ b, ¬ Cell.isMarker x = true := by
    by_contra hc
    push_neg at hc
    have : b.all Cell.isMarker = true := List.all_eq_true.2 (fun x hx => hc x hx)
    rw [this] at h
    cases h
  obtain ⟨x, hx, hxm⟩ := hex
  obtain ⟨i, hi, hbi⟩ := List.mem_iff_getElem.1 hx
  intro hnil
  have hmem : i ∈ getValidMovesT b := by
    rw [mem_getValidMovesT]
    refine ⟨by omega, ?_⟩
    rw [cellAt, List.getD_eq_getElem b _ hi, hbi]
    simpa using hxm
  rw [hnil] at hmem
  simp at hmem

lemma sortMoves_ne {ms : List Nat} {mx : Bool} (h : ms ≠ []) : sortMoves ms mx ≠ [] := by
  obtain ⟨m, hm⟩ := List.exists_mem_of_ne_nil ms h
  intro hnil
  have : m ∈ sortMoves ms mx := mem_sortMoves.2 hm
  rw [hnil] at this
  simp at this

/-! ## Helper lemmas : bounds on the values the search loops return -/

lemma searchMax_le {child : Board → Int → Int → (Int × Option Nat) × Board} {n : Nat} {U : Int}
    (hpres : ∀ bb a bt, (child bb a bt).2 = bb)
    (hub : ∀ bb a bt, bb.length = n → (child bb a bt).1.1 ≤ U) :
    ∀ (ms : List Nat) (b : Board) (alpha beta acc : Int) (best : Option Nat),
      b.length = n → acc ≤ U → (searchMax child ms b alpha beta acc best).1.1 ≤ U := by
  intro ms
  induction ms with
  | nil => intro b alpha beta acc best _ hacc; exact hacc
  | cons m rest ih =>
    intro b alpha beta acc best hb hacc
    have hsc : (child (b.set m Cell.O) alpha beta).1.1 ≤ U :=
      hub _ _ _ (by rw [List.length_set]; exact hb)
    simp only [searchMax, hpres, set_set_cellAt]
    split
    · dsimp only
      split <;> assumption
    · apply ih b _ beta _ _ hb
      dsimp only
      split <;> assumption

lemma searchMax_ge_of_acc {child : Board → Int → Int → (Int × Option Nat) × Board} {n : Nat} {L : Int}
    (hpres : ∀ bb a bt, (child bb a bt).2 = bb)
    (hlb : ∀ bb a bt, bb.length = n → L ≤ (child bb a bt).1.1) :
    ∀ (ms : List Nat) (b : Board) (alpha beta acc : Int) (best : Option Nat),
      b.length = n → L ≤ acc → L ≤ (searchMax child ms b alpha beta acc best).1.1 := by
  intro ms
  induction ms with
  | nil => intro b alpha beta acc best _ hacc; exact hacc
  | cons m rest ih =>
    intro b alpha beta acc best hb hacc
    have hsc : L ≤ (child (b.set m Cell.O) alpha beta).1.1 :=
      hlb _ _ _ (by rw [List.length_set]; exact hb)
    simp only [searchMax, hpres, set_set_cellAt]
    split
    · dsimp only
      split <;> assumption
    · apply ih b _ beta _ _ hb
      dsimp only
      split <;> assumption

lemma searchMax_ge_of_ne {child : Board → Int → Int → (Int × Option Nat) × Board} {n : Nat} {L : Int}
    (hpres : ∀ bb a bt, (child bb a bt).2 = bb)
    (hlb : ∀ bb a bt, bb.length = n → L ≤ (child bb a bt).1.1) :
    ∀ (ms : List Nat) (b : Board) (alpha beta acc : Int) (best : Option Nat),
      b.length = n → ms ≠ [] → L ≤ (searchMax child ms b alpha beta acc best).1.1 := by
  intro ms
  rcases ms with _ | ⟨m, rest⟩
  · intro b alpha beta acc best _ hne; exact absurd rfl hne
  · intro b alpha beta acc best hb _
    have hsc : L ≤ (child (b.set m Cell.O) alpha beta).1.1 :=
      hlb _ _ _ (by rw [List.length_set]; exact hb)
    have hstep : L ≤ (if (child (b.set m Cell.O) alpha beta).1.1 > acc
        then (child (b.set m Cell.O) alpha beta).1.1 else acc) := by
      split
      · exact hsc
      · omega
    simp only [searchMax, hpres, set_set_cellAt]
    split
    · exact hstep
    · exact searchMax_ge_of_acc hpres hlb rest b _ beta _ _ hb hstep

lemma searchMin_ge {child : Board → Int → Int → (Int × Option Nat) × Board} {n : Nat} {L : Int}
    (hpres : ∀ bb a bt, (child bb a bt).2 = bb)
    (hlb : ∀ bb a bt, bb.length = n → L ≤ (child bb a bt).1.1) :
    ∀ (ms : List Nat) (b : Board) (alpha beta acc : Int) (best : Option Nat),
      b.length = n → L ≤ acc → L ≤ (searchMin child ms b alpha beta acc best).1.1 := by
  intro ms
  induction ms with
  | nil => intro b alpha beta acc best _ hacc; exact hacc
  | cons m rest ih =>
    intro b alpha beta acc best hb hacc
    have hsc : L ≤ (child (b.set m Cell.X) alpha beta).1.1 :=
      hlb _ _ _ (by rw [List.length_set]; exact hb)
    simp only [searchMin, hpres, set_set_cellAt]
    split
    · dsimp only
      split <;> assumption
    · apply ih b alpha _ _ _ hb
      dsimp only
      split <;> assumption

lemma searchMin_le_of_acc {child : Board → Int → Int → (Int × Option Nat) × Board} {n : Nat} {U : Int}
    (hpres : ∀ bb a bt, (child bb a bt).2 = bb)
    (hub : ∀ bb a bt, bb.length = n → (child bb a bt).1.1 ≤ U) :
    ∀ (ms : List Nat) (b : Board) (alpha beta acc : Int) (best : Option Nat),
      b.length = n → acc ≤ U → (searchMin child ms b alpha beta acc best).1.1 ≤ U := by
  intro ms
  induction ms with
  | nil => intro b alpha beta acc best _ hacc; exact hacc
  | cons m rest ih =>
    intro b alpha beta acc best hb hacc
    have hsc : (child (b.set m Cell.X) alpha beta).1.1 ≤ U :=
      hub _ _ _ (by rw [List.length_set]; exact hb)
    simp only [searchMin, hpres, set_set_cellAt]
    split
    · dsimp only
      split <;> assumption
    · apply ih b alpha _ _ _ hb
      dsimp only
      split <;> assumption

lemma searchMin_le_of_ne {child : Board → Int → Int → (Int × Option Nat) × Board} {n : Nat} {U : Int}
    (hpres : ∀ bb a bt, (child bb a bt).2 = bb)
    (hub : ∀ bb a bt, bb.length = n → (child bb a bt).1.1 ≤ U) :
    ∀ (ms : List Nat) (b : Board) (alpha beta acc : Int) (best : Option Nat),
      b.length = n → ms ≠ [] → (searchMin child ms b alpha beta acc best).1.1 ≤ U := by
  intro ms
  rcases ms with _ | ⟨m, rest⟩
  · intro b alpha beta acc best _ hne; exact absurd rfl hne
  · intro b alpha beta acc best hb _
    have hsc : (child (b.set m Cell.X) alpha beta).1.1 ≤ U :=
      hub _ _ _ (by rw [List.length_set]; exact hb)
    have hstep : (if (child (b.set m Cell.X) alpha beta).1.1 < acc
        then (child (b.set m Cell.X) alpha beta).1.1 else acc) ≤ U := by
      split
      · exact hsc
      · omega
    simp only [searchMin, hpres, set_set_cellAt]
    split
    · exact hstep
    · exact searchMin_le_of_acc hpres hub rest b alpha _ _ _ hb hstep

/-! ## Helper lemmas : minimax values stay within the depth-sensitive range -/

lemma minimax_ge : ∀ (d : Nat) (b : Board) (a bt : Int) (mx : Bool), b.length = 9 →
    -(100 + (d : Int)) ≤ (minimax d b a bt mx).1.1 := by
  intro d
  induction d with
  | zero =>
    intro b a bt mx hb
    rw [minimax]
    obtain ⟨he1, he2⟩ := evaluatePosition_zero_bounds b
    cases mx with
    | true =>
      rw [if_pos rfl]
      rcases hgw : getWinningMove b Cell.O with ⟨o, b1⟩
      have hb1 : b1 = b := by
        have := getWinningMove_board b Cell.O; rw [hgw] at this; exact this
      subst hb1
      cases o with
      | some m => dsimp only; push_cast <;> omega
      | none =>
        dsimp only
        split_ifs <;> dsimp only <;> (push_cast; try omega) <;> linarith
    | false =>
      rw [if_neg (by simp)]
      rcases hgw : getWinningMove b Cell.X with ⟨o, b1⟩
      have hb1 : b1 = b := by
        have := getWinningMove_board b Cell.X; rw [hgw] at this; exact this
      subst hb1
      cases o with
      | some m => dsimp only; push_cast <;> omega
      | none =>
        dsimp only
        split_ifs <;> dsimp only <;> (push_cast; try omega) <;> linarith
  | succ d ih =>
    intro b a bt mx hb
    rw [minimax]
    cases mx with
    | true =>
      rw [if_pos rfl]
      rcases hgw : getWinningMove b Cell.O with ⟨o, b1⟩
      have hb1 : b1 = b := by
        have := getWinningMove_board b Cell.O; rw [hgw] at this; exact this
      subst hb1
      cases o with
      | some m => dsimp only; push_cast <;> omega
      | none =>
        dsimp only
        by_cases hW1 : isWinner b1 Cell.O = true
        · rw [if_pos hW1] <;> (dsimp only; push_cast <;> omega)
        · rw [if_neg hW1]
          by_cases hW2 : isWinner b1 Cell.X = true
          · rw [if_pos hW2] <;> (dsimp only; push_cast <;> omega)
          · rw [if_neg hW2]
            by_cases hF : isBoardFull b1 = true
            · rw [if_pos hF] <;> (dsimp only; push_cast <;> omega)
            · rw [if_neg hF]
              rw [if_pos rfl]
              have hne : sortMoves (getValidMovesT b1) true ≠ [] :=
                sortMoves_ne (validMovesT_ne hb (by simpa using hF))
              have hres := searchMax_ge_of_ne (n := 9) (L := -(100 + (d : Int)))
                (fun bb a' bt' => minimax_board d bb a' bt' false)
                (fun bb a' bt' hlen => ih bb a' bt' false hlen)
                (sortMoves (getValidMovesT b1) true) b1 a bt negInf none hb hne
              push_cast
              push_cast at hres
              linarith
    | false =>
      rw [if_neg (by simp)]
      rcases hgw : getWinningMove b Cell.X with ⟨o, b1⟩
      have hb1 : b1 = b := by
        have := getWinningMove_board b Cell.X; rw [hgw] at this; exact this
      subst hb1
      cases o with
      | some m => dsimp only; push_cast <;> omega
      | none =>
        dsimp only
        by_cases hW1 : isWinner b1 Cell.O = true
        · rw [if_pos hW1] <;> (dsimp only; push_cast <;> omega)
        · rw [if_neg hW1]
          by_cases hW2 : isWinner b1 Cell.X = true
          · rw [if_pos hW2] <;> (dsimp only; push_cast <;> omega)
          · rw [if_neg hW2]
            by_cases hF : isBoardFull b1 = true
            · rw [if_pos hF] <;> (dsimp only; push_cast <;> omega)
            · rw [if_neg hF]
              rw [if_neg (by simp)]
              have hres := searchMin_ge (n := 9) (L := -(100 + (d : Int)))
                (fun bb a' bt' => minimax_board d bb a' bt' true)
                (fun bb a' bt' hlen => ih bb a' bt' true hlen)
                (sortMoves (getValidMovesT b1) false) b1 a bt posInf none hb
                (by rw [posInf]; push_cast <;> omega)
              push_cast
              push_cast at hres
              linarith

lemma minimax_le : ∀ (d : Nat) (b : Board) (a bt : Int) (mx : Bool), b.length = 9 →
    (minimax d b a bt mx).1.1 ≤ 100 + (d : Int) := by
  intro d
  induction d with
  | zero =>
    intro b a bt mx hb
    rw [minimax]
    obtain ⟨he1, he2⟩ := evaluatePosition_zero_bounds b
    cases mx with
    | true =>
      rw [if_pos rfl]
      rcases hgw : getWinningMove b Cell.O with ⟨o, b1⟩
      have hb1 : b1 = b := by
        have := getWinningMove_board b Cell.O; rw [hgw] at this; exact this
      subst hb1
      cases o with
      | some m => dsimp only; push_cast <;> omega
      | none =>
        dsimp only
        split_ifs <;> dsimp only <;> (push_cast; try omega) <;> linarith
    | false =>
      rw [if_neg (by simp)]
      rcases hgw : getWinningMove b Cell.X with ⟨o, b1⟩
      have hb1 : b1 = b := by
        have := getWinningMove_board b Cell.X; rw [hgw] at this; exact this
      subst hb1
      cases o with
      | some m => dsimp only; push_cast <;> omega
      | none =>
        dsimp only
        split_ifs <;> dsimp only <;> (push_cast; try omega) <;> linarith
  | succ d ih =>
    intro b a bt mx hb
    rw [minimax]
    cases mx with
    | true =>
      rw [if_pos rfl]
      rcases hgw : getWinningMove b Cell.O with ⟨o, b1⟩
      have hb1 : b1 = b := by
        have := getWinningMove_board b Cell.O; rw [hgw] at this; exact this
      subst hb1
      cases o with
      | some m => dsimp only; push_cast <;> omega
      | none =>
        dsimp only
        by_cases hW1 : isWinner b1 Cell.O = true
        · rw [if_pos hW1] <;> (dsimp only; push_cast <;> omega)
        · rw [if_neg hW1]
          by_cases hW2 : isWinner b1 Cell.X = true
          · rw [if_pos hW2] <;> (dsimp only; push_cast <;> omega)
          · rw [if_neg hW2]
            by_cases hF : isBoardFull b1 = true
            · rw [if_pos hF] <;> (dsimp only; push_cast <;> omega)
            · rw [if_neg hF]
              rw [if_pos rfl]
              have hres := searchMax_le (n := 9) (U := 100 + (d : Int))
                (fun bb a' bt' => minimax_board d bb a' bt' false)
                (fun bb a' bt' hlen => ih bb a' bt' false hlen)
                (sortMoves (getValidMovesT b1) true) b1 a bt negInf none hb
                (by rw [negInf]; push_cast <;> omega)
              push_cast
              push_cast at hres
              linarith
    | false =>
      rw [if_neg (by simp)]
      rcases hgw : getWinningMove b Cell.X with ⟨o, b1⟩
      have hb1 : b1 = b := by
        have := getWinningMove_board b Cell.X; rw [hgw] at this; exact this
      subst hb1
      cases o with
      | some m => dsimp only; push_cast <;> omega
      | none =>
        dsimp only
        by_cases hW1 : isWinner b1 Cell.O = true
        · rw [if_pos hW1] <;> (dsimp only; push_cast <;> omega)
        · rw [if_neg hW1]
          by_cases hW2 : isWinner b1 Cell.X = true
          · rw [if_pos hW2] <;> (dsimp only; push_cast <;> omega)
          · rw [if_neg hW2]
            by_cases hF : isBoardFull b1 = true
            · rw [if_pos hF] <;> (dsimp only; push_cast <;> omega)
            · rw [if_neg hF]
              rw [if_neg (by simp)]
              have hne : sortMoves (getValidMovesT b1) false ≠ [] :=
                sortMoves_ne (validMovesT_ne hb (by simpa using hF))
              have hres := searchMin_le_of_ne (n := 9) (U := 100 + (d : Int))
                (fun bb a' bt' => minimax_board d bb a' bt' true)
                (fun bb a' bt' hlen => ih bb a' bt' true hlen)
                (sortMoves (getValidMovesT b1) false) b1 a bt posInf none hb hne
              push_cast
              push_cast at hres
              linarith

/-! ## Helper lemmas : winning lines under single-cell updates -/

lemma winLine_mem_lt {l : Nat × Nat × Nat} (hl : l ∈ winLines) :
    l.1 < 9 ∧ l.2.1 < 9 ∧ l.2.2 < 9 := by
  have : ∀ l ∈ winLines, l.1 < 9 ∧ l.2.1 < 9 ∧ l.2.2 < 9 := by decide
  exact this l hl

/-- A winner survives any board change that preserves the winner's cells. -/
lemma isWinner_transfer {b b2 : Board} {p : Cell}
    (h : ∀ i, i < 9 → cellAt b i = p → cellAt b2 i = p)
    (hw : isWinner b p = true) : isWinner b2 p = true := by
  obtain ⟨l, hl, h1, h2, h3⟩ := isWinner_iff.1 hw
  obtain ⟨t1, t2, t3⟩ := winLine_mem_lt hl
  exact isWinner_iff.2 ⟨l, hl, h _ t1 h1, h _ t2 h2, h _ t3 h3⟩

/-- A fresh winning line must pass through the cell just placed. -/
lemma winner_line_through {b : Board} {e : Nat} {p : Cell}
    (hw : isWinner (b.set e p) p = true) (hnb : isWinner b p = false) :
    ∃ l ∈ winLines, (e = l.1 ∨ e = l.2.1 ∨ e = l.2.2) ∧
      cellAt (b.set e p) l.1 = p ∧ cellAt (b.set e p) l.2.1 = p ∧
      cellAt (b.set e p) l.2.2 = p := by
  obtain ⟨l, hl, h1, h2, h3⟩ := isWinner_iff.1 hw
  refine ⟨l, hl, ?_, h1, h2, h3⟩
  by_contra hne
  push_neg at hne
  obtain ⟨n1, n2, n3⟩ := hne
  have hwb : isWinner b p = true :=
    isWinner_iff.2 ⟨l, hl,
      by rw [← cellAt_set_ne b e l.1 p (fun h => n1 h)]; exact h1,
      by rw [← cellAt_set_ne b e l.2.1 p (fun h => n2 h)]; exact h2,
      by rw [← cellAt_set_ne b e l.2.2 p (fun h => n3 h)]; exact h3⟩
  rw [hwb] at hnb
  cases hnb

/-! ## Helper lemmas : the maximizing root loop picks the unique surviving move

With `beta = posInf` the cutoff never fires, so the loop examines every move;
a move whose child value strictly exceeds every other child value is the one
returned.  Specialised to the blocking situation of the spec: the unique
blocking move is worth at least -104 while every other move is worth exactly
-105. -/

lemma searchMax_keep_best {child : Board → Int → Int → (Int × Option Nat) × Board}
    {b : Board} {c : Nat}
    (hpres : ∀ bb a bt, (child bb a bt).2 = bb)
    (hub : ∀ bb a bt, bb.length = 9 → (child bb a bt).1.1 ≤ 105)
    (hb : b.length = 9)
    (hc : ∀ a bt, -104 ≤ (child (b.set c Cell.O) a bt).1.1) :
    ∀ (ms : List Nat) (alpha acc : Int),
      (∀ m ∈ ms, m ≠ c → ∀ a bt, (child (b.set m Cell.O) a bt).1.1 = -105) →
      alpha < posInf → -104 ≤ acc →
      (searchMax child ms b alpha posInf acc (some c)).1.2 = some c := by
  intro ms
  induction ms with
  | nil => intro alpha acc _ _ _; rfl
  | cons m rest ih =>
    intro alpha acc hvals halpha hacc
    have hml : (b.set m Cell.O).length = 9 := by rw [List.length_set]; exact hb
    simp only [searchMax, hpres, set_set_cellAt]
    by_cases hm : m = c
    · subst hm
      have hsc := hc alpha posInf
      have hsu := hub (b.set m Cell.O) alpha posInf hml
      have hblt : (child (b.set m Cell.O) alpha posInf).1.1 < posInf :=
        lt_of_le_of_lt hsu (by norm_num [posInf])
      rw [if_neg (not_le.2 (max_lt halpha hblt))]
      have hbest : (if (child (b.set m Cell.O) alpha posInf).1.1 > acc
          then some m else some m) = some m := by rw [ite_self]
      rw [hbest]
      apply ih _ _ (fun m' hm' => hvals m' (List.mem_cons_of_mem _ hm'))
      · exact max_lt halpha hblt
      · dsimp only
        split
        · exact hsc
        · exact hacc
    · have hsc : (child (b.set m Cell.O) alpha posInf).1.1 = -105 :=
        hvals m (List.mem_cons_self m rest) hm alpha posInf
      rw [hsc]
      rw [if_neg (not_le.2 (max_lt halpha (by norm_num [posInf])))]
      have hgt : ¬((-105 : Int) > acc) := by omega
      rw [if_neg hgt, if_neg hgt]
      apply ih _ _ (fun m' hm' => hvals m' (List.mem_cons_of_mem _ hm'))
      · exact max_lt halpha (by norm_num [posInf])
      · exact hacc

lemma searchMax_pick_unique {child : Board → Int → Int → (Int × Option Nat) × Board}
    {b : Board} {c : Nat}
    (hpres : ∀ bb a bt, (child bb a bt).2 = bb)
    (hub : ∀ bb a bt, bb.length = 9 → (child bb a bt).1.1 ≤ 105)
    (hb : b.length = 9)
    (hc : ∀ a bt, -104 ≤ (child (b.set c Cell.O) a bt).1.1) :
    ∀ (ms : List Nat) (alpha acc : Int) (best : Option Nat),
      c ∈ ms →
      (∀ m ∈ ms, m ≠ c → ∀ a bt, (child (b.set m Cell.O) a bt).1.1 = -105) →
      alpha < posInf → acc ≤ -105 →
      (searchMax child ms b alpha posInf acc best).1.2 = some c := by
  intro ms
  induction ms with
  | nil => intro alpha acc best hcm; cases hcm
  | cons m rest ih =>
    intro alpha acc best hcm hvals halpha hacc
    have hml : (b.set m Cell.O).length = 9 := by rw [List.length_set]; exact hb
    simp only [searchMax, hpres, set_set_cellAt]
    by_cases hm : m = c
    · subst hm
      have hsc := hc alpha posInf
      have hsu := hub (b.set m Cell.O) alpha posInf hml
      have hblt : (child (b.set m Cell.O) alpha posInf).1.1 < posInf :=
        lt_of_le_of_lt hsu (by norm_num [posInf])
      rw [if_neg (not_le.2 (max_lt halpha hblt))]
      rw [if_pos (by show (child (b.set m Cell.O) alpha posInf).1.1 > acc; omega),
          if_pos (by show (child (b.set m Cell.O) alpha posInf).1.1 > acc; omega)]
      apply searchMax_keep_best hpres hub hb hc _ _ _
        (fun m' hm' => hvals m' (List.mem_cons_of_mem _ hm'))
      · exact max_lt halpha hblt
      · exact hsc
    · have hcrest : c ∈ rest := by
        rcases List.mem_cons.1 hcm with h | h
        · exact absurd h.symm hm
        · exact h
      have hsc : (child (b.set m Cell.O) alpha posInf).1.1 = -105 :=
        hvals m (List.mem_cons_self m rest) hm alpha posInf
      rw [hsc]
      rw [if_neg (not_le.2 (max_lt halpha (by norm_num [posInf])))]
      by_cases hgt : (-105 : Int) > acc
      · rw [if_pos hgt, if_pos hgt]
        apply ih _ _ _ hcrest (fun m' hm' => hvals m' (List.mem_cons_of_mem _ hm'))
        · exact max_lt halpha (by norm_num [posInf])
        · omega
      · rw [if_neg hgt, if_neg hgt]
        apply ih _ _ _ hcrest (fun m' hm' => hvals m' (List.mem_cons_of_mem _ hm'))
        · exact max_lt halpha (by norm_num [posInf])
        · exact hacc

/-! ## Helper lemmas : assembling the blocking argument -/

lemma notFull_of_mem_valid {b : Board} {c : Nat} (hb : b.length = 9)
    (hmem : c ∈ getValidMovesT b) : isBoardFull b = false := by
  obtain ⟨hc9, hcn⟩ := mem_getValidMovesT.1 hmem
  by_contra hf
  rw [Bool.not_eq_false] at hf
  have hall := List.all_eq_true.1 hf
  have hcell : cellAt b c ∈ b := by
    rw [cellAt, List.getD_eq_getElem b _ (by omega)]
    exact List.getElem_mem _
  have := hall _ hcell
  rw [this] at hcn
  cases hcn

/-- An immediate winning move forces the minimizing short-circuit of
`minimax` to fire, with the depth-sensitive losing score. -/
lemma minimax_min_shortcircuit {bb : Board} (d : Nat) (a bt : Int)
    (h : ∃ m ∈ getValidMovesT bb, isWinner (bb.set m Cell.X) Cell.X = true) :
    (minimax d bb a bt false).1.1 = -(100 + (d : Int)) := by
  obtain ⟨m', hm'⟩ := getWinningMove_some_of_exists h
  rw [minimax, if_neg (by simp)]
  rcases hgw : getWinningMove bb Cell.X with ⟨o, b1⟩
  rw [hgw] at hm'
  simp only at hm'
  subst hm'
  rfl

/-- After the unique threat is blocked, the opponent has no immediate winning
move any more. -/
lemma no_x_win_after_block {b : Board} {c : Nat}
    (hb : b.length = 9) (hXw : isWinner b Cell.X = false)
    (hcmem : c ∈ getValidMovesT b)
    (huniq : ∀ m ∈ getValidMovesT b, isWinner (b.set m Cell.X) Cell.X = true → m = c) :
    ∀ m' ∈ getValidMovesT (b.set c Cell.O),
      isWinner ((b.set c Cell.O).set m' Cell.X) Cell.X = false := by
  intro m' hm'
  obtain ⟨hm9, hmn⟩ := mem_getValidMovesT.1 hm'
  have hc9 : c < 9 := (mem_getValidMovesT.1 hcmem).1
  have hmc : m' ≠ c := by
    intro he
    subst he
    rw [cellAt_set_self b m' Cell.O (by omega)] at hmn
    cases hmn
  by_contra hw
  rw [Bool.not_eq_false] at hw
  have htrans : isWinner (b.set m' Cell.X) Cell.X = true := by
    apply isWinner_transfer _ hw
    intro i hi9 hcell
    by_cases him : i = m'
    · subst him
      rw [cellAt_set_self b i Cell.X (by omega)]
    · rw [cellAt_set_ne _ m' i Cell.X (fun h => him h.symm)] at hcell
      have hic : i ≠ c := by
        intro he
        subst he
        rw [cellAt_set_self b i Cell.O (by omega)] at hcell
        cases hcell
      rw [cellAt_set_ne _ c i Cell.O (fun h => hic h.symm)] at hcell
      rw [cellAt_set_ne _ m' i Cell.X (fun h => him h.symm)]
      exact hcell
  have hmb : m' ∈ getValidMovesT b := by
    rw [mem_getValidMovesT]
    refine ⟨hm9, ?_⟩
    rw [← cellAt_set_ne b c m' Cell.O (fun h => hmc h.symm)]
    exact hmn
  exact hmc (huniq m' hmb htrans)

/-- Blocking the threat also creates no line for the blocking side's opponent
out of nothing: X has no completed line on `b.set c O` if it had none on `b`. -/
lemma no_x_line_after_o {b : Board} {c : Nat}
    (hb : b.length = 9) (hc9 : c < 9) (hXw : isWinner b Cell.X = false) :
    isWinner (b.set c Cell.O) Cell.X = false := by
  by_contra hw
  rw [Bool.not_eq_false] at hw
  have : isWinner b Cell.X = true := by
    apply isWinner_transfer _ hw
    intro i hi9 hcell
    by_cases hic : i = c
    · subst hic
      rw [cellAt_set_self b i Cell.O (by omega)] at hcell
      cases hcell
    · rw [cellAt_set_ne b c i Cell.O (fun h => hic h.symm)] at hcell
      exact hcell
  rw [this] at hXw
  cases hXw

/-- The opponent's unique winning cell is still open, and still winning, after
the engine tries any other move. -/
lemma x_threat_survives {b : Board} {c m : Nat}
    (hb : b.length = 9)
    (hcmem : c ∈ getValidMovesT b)
    (hcwin : isWinner (b.set c Cell.X) Cell.X = true)
    (hmmem : m ∈ getValidMovesT b) (hmc : m ≠ c) :
    c ∈ getValidMovesT (b.set m Cell.O) ∧
      isWinner ((b.set m Cell.O).set c Cell.X) Cell.X = true := by
  obtain ⟨hc9, hcn⟩ := mem_getValidMovesT.1 hcmem
  obtain ⟨hm9, hmn⟩ := mem_getValidMovesT.1 hmmem
  constructor
  · rw [mem_getValidMovesT]
    refine ⟨hc9, ?_⟩
    rw [cellAt_set_ne b m c Cell.O hmc]
    exact hcn
  · apply isWinner_transfer _ hcwin
    intro i hi9 hcell
    by_cases hic : i = c
    · subst hic
      rw [cellAt_set_self _ i Cell.X (by rw [List.length_set]; omega)]
    · rw [cellAt_set_ne b c i Cell.X (fun h => hic h.symm)] at hcell
      have him : i ≠ m := by
        intro he
        subst he
        rw [hcell] at hmn
        cases hmn
      rw [cellAt_set_ne _ c i Cell.X (fun h => hic h.symm),
          cellAt_set_ne b m i Cell.O (fun h => him h.symm)]
      exact hcell

/-- Lower bound for a minimizing node whose opponent has no immediate win:
one depth level better than an immediate loss. -/
lemma minimax_min_value_ge {bb : Board} (d : Nat) (a bt : Int)
    (hb : bb.length = 9)
    (hnoX : ∀ m ∈ getValidMovesT bb, isWinner (bb.set m Cell.X) Cell.X = false)
    (hOw : isWinner bb Cell.O = false)
    (hXw : isWinner bb Cell.X = false) :
    -(100 + (d : Int)) ≤ (minimax (d + 1) bb a bt false).1.1 := by
  rw [minimax, if_neg (by simp)]
  rw [getWinningMove_none hnoX]
  dsimp only
  rw [if_neg (by simp [hOw]), if_neg (by simp [hXw])]
  by_cases hF : isBoardFull bb = true
  · rw [if_pos hF]
    dsimp only
    push_cast
    omega
  · rw [if_neg hF]
    rw [if_neg (by simp)]
    exact searchMin_ge (n := 9)
      (fun bb' a' bt' => minimax_board d bb' a' bt' true)
      (fun bb' a' bt' hlen => minimax_ge d bb' a' bt' true hlen)
      (sortMoves (getValidMovesT bb) false) bb a bt posInf none hb
      (by rw [posInf]; push_cast; omega)

/-! ## Helper lemmas : check_winner and reachability -/

lemma scanLines_none_lines {b : Board} : ∀ (ls : List (Nat × Nat × Nat)),
    scanLines b ls = none ↔
      ∀ l ∈ ls,
        ¬(cellAt b l.1 = Cell.X ∧ cellAt b l.2.1 = Cell.X ∧ cellAt b l.2.2 = Cell.X) ∧
        ¬(cellAt b l.1 = Cell.O ∧ cellAt b l.2.1 = Cell.O ∧ cellAt b l.2.2 = Cell.O) := by
  intro ls
  induction ls with
  | nil => simp [scanLines]
  | cons l rest ih =>
    rcases l with ⟨i, j, k⟩
    show (if cellAt b i = cellAt b j ∧ cellAt b j = cellAt b k then _ else _) = none ↔ _
    by_cases heq : cellAt b i = cellAt b j ∧ cellAt b j = cellAt b k
    · rw [if_pos heq]
      obtain ⟨e1, e2⟩ := heq
      by_cases hX : cellAt b i = Cell.X
      · rw [if_pos hX]
        simp only [List.mem_cons]
        constructor
        · intro h; cases h
        · intro h
          exact absurd ⟨hX, by rw [← e1]; exact hX, by rw [← e2, ← e1]; exact hX⟩
            (h (i, j, k) (Or.inl rfl)).1
      · rw [if_neg hX]
        by_cases hO : cellAt b i = Cell.O
        · rw [if_pos hO]
          simp only [List.mem_cons]
          constructor
          · intro h; cases h
          · intro h
            exact absurd ⟨hO, by rw [← e1]; exact hO, by rw [← e2, ← e1]; exact hO⟩
              (h (i, j, k) (Or.inl rfl)).2
        · rw [if_neg hO, ih]
          simp only [List.mem_cons]
          constructor
          · intro h l hl
            rcases hl with hl | hl
            · subst hl
              constructor
              · rintro ⟨h1, _, _⟩; exact hX h1
              · rintro ⟨h1, _, _⟩; exact hO h1
            · exact h l hl
          · intro h l hl
            exact h l (Or.inr hl)
    · rw [if_neg heq, ih]
      simp only [List.mem_cons]
      constructor
      · intro h l hl
        rcases hl with hl | hl
        · subst hl
          constructor
          · rintro ⟨h1, h2, h3⟩; exact heq ⟨h1.trans h2.symm, h2.trans h3.symm⟩
          · rintro ⟨h1, h2, h3⟩; exact heq ⟨h1.trans h2.symm, h2.trans h3.symm⟩
        · exact h l hl
      · intro h l hl
        exact h l (Or.inr hl)

lemma scanLines_none_iff {b : Board} :
    scanLines b winLines = none ↔ isWinner b Cell.X = false ∧ isWinner b Cell.O = false := by
  rw [scanLines_none_lines]
  constructor
  · intro h
    constructor
    · rw [← Bool.not_eq_true, isWinner_iff]
      rintro ⟨l, hl, hcells⟩
      exact (h l hl).1 hcells
    · rw [← Bool.not_eq_true, isWinner_iff]
      rintro ⟨l, hl, hcells⟩
      exact (h l hl).2 hcells
  · rintro ⟨hX, hO⟩ l hl
    constructor
    · intro hc
      have : isWinner b Cell.X = true := isWinner_iff.2 ⟨l, hl, hc⟩
      rw [this] at hX; cases hX
    · intro hc
      have : isWinner b Cell.O = true := isWinner_iff.2 ⟨l, hl, hc⟩
      rw [this] at hO; cases hO

lemma scanLines_some_line {b : Board} : ∀ (ls : List (Nat × Nat × Nat)) (g : GameState),
    scanLines b ls = some g →
      (g = GameState.X_WINS ∧ ∃ l ∈ ls,
        cellAt b l.1 = Cell.X ∧ cellAt b l.2.1 = Cell.X ∧ cellAt b l.2.2 = Cell.X) ∨
      (g = GameState.O_WINS ∧ ∃ l ∈ ls,
        cellAt b l.1 = Cell.O ∧ cellAt b l.2.1 = Cell.O ∧ cellAt b l.2.2 = Cell.O) := by
  intro ls
  induction ls with
  | nil => intro g h; cases h
  | cons l rest ih =>
    rcases l with ⟨i, j, k⟩
    intro g h
    revert h
    show (if cellAt b i = cellAt b j ∧ cellAt b j = cellAt b k then _ else _) = some g → _
    by_cases heq : cellAt b i = cellAt b j ∧ cellAt b j = cellAt b k
    · rw [if_pos heq]
      obtain ⟨e1, e2⟩ := heq
      by_cases hX : cellAt b i = Cell.X
      · rw [if_pos hX]
        intro h
        simp only [Option.some.injEq] at h
        subst h
        exact Or.inl ⟨rfl, ⟨(i, j, k), List.mem_cons_self _ _,
          hX, by rw [← e1]; exact hX, by rw [← e2, ← e1]; exact hX⟩⟩
      · rw [if_neg hX]
        by_cases hO : cellAt b i = Cell.O
        · rw [if_pos hO]
          intro h
          simp only [Option.some.injEq] at h
          subst h
          exact Or.inr ⟨rfl, ⟨(i, j, k), List.mem_cons_self _ _,
            hO, by rw [← e1]; exact hO, by rw [← e2, ← e1]; exact hO⟩⟩
        · rw [if_neg hO]
          intro h
          rcases ih g h with ⟨hg, l', hl', hc⟩ | ⟨hg, l', hl', hc⟩
          · exact Or.inl ⟨hg, l', List.mem_cons_of_mem _ hl', hc⟩
          · exact Or.inr ⟨hg, l', List.mem_cons_of_mem _ hl', hc⟩
    · rw [if_neg heq]
      intro h
      rcases ih g h with ⟨hg, l', hl', hc⟩ | ⟨hg, l', hl', hc⟩
      · exact Or.inl ⟨hg, l', List.mem_cons_of_mem _ hl', hc⟩
      · exact Or.inr ⟨hg, l', List.mem_cons_of_mem _ hl', hc⟩

lemma checkWinner_ongoing_no_lines {b : Board} (h : checkWinner b = GameState.ONGOING) :
    isWinner b Cell.X = false ∧ isWinner b Cell.O = false := by
  rw [checkWinner] at h
  cases hs : scanLines b winLines with
  | none => exact scanLines_none_iff.1 hs
  | some g =>
    rw [hs] at h
    simp only at h
    subst h
    rcases scanLines_some_line _ _ hs with ⟨hg, _⟩ | ⟨hg, _⟩ <;> cases hg

lemma makeMove_eq (b : Board) (m : Int) (p : Cell) :
    makeMove b m p =
      if isValidMove b (m - 1) then (true, b.set (m - 1).toNat p) else (false, b) := rfl

lemma isValidMove_true {b : Board} {pos : Int} (h : isValidMove b pos = true) :
    0 ≤ pos ∧ pos < 9 ∧ (cellAt b pos.toNat).isMarker = false := by
  rw [isValidMove] at h
  simp only [Bool.and_eq_true, decide_eq_true_eq, Bool.not_eq_true'] at h
  exact ⟨h.1.1, h.1.2, h.2⟩

lemma makeMove_true_eq {b : Board} {m : Int} {p : Cell} (h : (makeMove b m p).1 = true) :
    isValidMove b (m - 1) = true ∧ (makeMove b m p).2 = b.set (m - 1).toNat p := by
  rw [makeMove_eq] at h ⊢
  by_cases hv : isValidMove b (m - 1) = true
  · rw [if_pos hv]
    exact ⟨hv, rfl⟩
  · rw [if_neg hv] at h
    cases h

lemma makeMove_false_eq {b : Board} {m : Int} {p : Cell} (h : (makeMove b m p).1 = false) :
    (makeMove b m p).2 = b := by
  rw [makeMove_eq] at h ⊢
  by_cases hv : isValidMove b (m - 1) = true
  · rw [if_pos hv] at h
    cases h
  · rw [if_neg hv]

lemma reachable_length {b : Board} {p : Cell} (h : Reachable b p) : b.length = 9 := by
  induction h with
  | init => rfl
  | step b p m hr hgs hmv ih =>
    obtain ⟨_, he⟩ := makeMove_true_eq hmv
    rw [he, List.length_set]
    exact ih

lemma reachable_player {b : Board} {p : Cell} (h : Reachable b p) :
    p = Cell.X ∨ p = Cell.O := by
  induction h with
  | init => exact Or.inl rfl
  | step b p m hr hgs hmv ih =>
    by_cases hp : p = Cell.X
    · rw [if_pos hp]; exact Or.inr rfl
    · rw [if_neg hp]; exact Or.inl rfl

/-- A completed line of the non-moving side already existed before the move. -/
lemma opponent_line_persists {b : Board} {pos : Nat} {p q : Cell}
    (hb : b.length = 9) (hpos : pos < 9) (hpq : p ≠ q)
    (hw : isWinner (b.set pos p) q = true) : isWinner b q = true := by
  apply isWinner_transfer _ hw
  intro i hi9 hcell
  by_cases hip : i = pos
  · subst hip
    rw [cellAt_set_self b i p (by omega)] at hcell
    exact absurd hcell hpq
  · rw [cellAt_set_ne b pos i p (fun h => hip h.symm)] at hcell
    exact hcell

lemma reachable_not_both {b : Board} {p : Cell} (h : Reachable b p) :
    ¬(isWinner b Cell.X = true ∧ isWinner b Cell.O = true) := by
  induction h with
  | init => rintro ⟨h1, _⟩; revert h1; decide
  | step b p m hr hgs hmv ih =>
    rintro ⟨hX, hO⟩
    obtain ⟨hnx, hno⟩ := checkWinner_ongoing_no_lines hgs
    obtain ⟨hv, he⟩ := makeMove_true_eq hmv
    obtain ⟨hge, hlt, _⟩ := isValidMove_true hv
    have hb := reachable_length hr
    have hpos : (m - 1).toNat < 9 := by omega
    rcases reachable_player hr with hp | hp
    · subst hp
      rw [he] at hO
      have : isWinner b Cell.O = true :=
        opponent_line_persists hb hpos (by intro hc; cases hc) hO
      rw [this] at hno
      cases hno
    · subst hp
      rw [he] at hX
      have : isWinner b Cell.X = true :=
        opponent_line_persists hb hpos (by intro hc; cases hc) hX
      rw [this] at hnx
      cases hnx

/-! ## Claim theorems -/

/-- C2 (counterexample): the claim "whenever the side to move has no one-move
win and the opponent has one, `get_ai_move` returns a move occupying a cell
that completes one of the opponent's winning lines" is false.  On the board
`X X 3 / X 5 O / 7 O 9` (O to move) O has no one-move win, X has the two
winning cells 2 and 6, yet the engine returns the center 4, which completes
no X line: every non-blocking reply scores the same immediate -105 because of
the depth-insensitive minimizing short-circuit, and the weight ordering puts
the center first. -/
theorem c2_counterexample :
    (isWinner [Cell.X, Cell.X, Cell.E 3, Cell.X, Cell.E 5, Cell.O,
        Cell.E 7, Cell.O, Cell.E 9] Cell.X = false) ∧
    (isWinner [Cell.X, Cell.X, Cell.E 3, Cell.X, Cell.E 5, Cell.O,
        Cell.E 7, Cell.O, Cell.E 9] Cell.O = false) ∧
    (∀ m ∈ getValidMovesT [Cell.X, Cell.X, Cell.E 3, Cell.X, Cell.E 5, Cell.O,
        Cell.E 7, Cell.O, Cell.E 9],
      isWinner ([Cell.X, Cell.X, Cell.E 3, Cell.X, Cell.E 5, Cell.O,
        Cell.E 7, Cell.O, Cell.E 9].set m Cell.O) Cell.O = false) ∧
    (∃ m ∈ getValidMovesT [Cell.X, Cell.X, Cell.E 3, Cell.X, Cell.E 5, Cell.O,
        Cell.E 7, Cell.O, Cell.E 9],
      isWinner ([Cell.X, Cell.X, Cell.E 3, Cell.X, Cell.E 5, Cell.O,
        Cell.E 7, Cell.O, Cell.E 9].set m Cell.X) Cell.X = true) ∧
    ((getAiMove [Cell.X, Cell.X, Cell.E 3, Cell.X, Cell.E 5, Cell.O,
        Cell.E 7, Cell.O, Cell.E 9]).1 = some 4) ∧
    (isWinner ([Cell.X, Cell.X, Cell.E 3, Cell.X, Cell.E 5, Cell.O,
        Cell.E 7, Cell.O, Cell.E 9].set 4 Cell.X) Cell.X = false) := by
  decide

/-- C2 (amended): on a 9-cell board with no completed line, where the side to
move (O, the maximizing side of `get_ai_move`) has no one-move win and ALL of
the opponent's one-move wins require one and the same cell `c`, the search
engine returns `c`, i.e. it blocks the opponent's unique immediate win. -/
theorem c2_blocks_unique_threat (b : Board) (c : Nat)
    (hb : b.length = 9)
    (hXw : isWinner b Cell.X = false)
    (hOw : isWinner b Cell.O = false)
    (hOnoWin : ∀ m ∈ getValidMovesT b, isWinner (b.set m Cell.O) Cell.O = false)
    (hcmem : c ∈ getValidMovesT b)
    (hcwin : isWinner (b.set c Cell.X) Cell.X = true)
    (huniq : ∀ m ∈ getValidMovesT b, isWinner (b.set m Cell.X) Cell.X = true → m = c) :
    (getAiMove b).1 = some c := by
  have hc9 : c < 9 := (mem_getValidMovesT.1 hcmem).1
  show (minimax 6 b negInf posInf true).1.2 = some c
  rw [show (6 : Nat) = 5 + 1 from rfl]
  rw [minimax, if_pos rfl, getWinningMove_none hOnoWin]
  dsimp only
  rw [if_neg (by simp [hOw]), if_neg (by simp [hXw]),
      if_neg (by simp [notFull_of_mem_valid hb hcmem]), if_pos rfl]
  apply searchMax_pick_unique
    (fun bb a' bt' => minimax_board 5 bb a' bt' false)
    (fun bb a' bt' hlen => by
      have h5 := minimax_le 5 bb a' bt' false hlen
      push_cast at h5
      linarith)
    hb
    (fun a' bt' => by
      have h1 := no_x_win_after_block hb hXw hcmem huniq
      have h2 := hOnoWin c hcmem
      have h3 := no_x_line_after_o hb hc9 hXw
      have h4 : (b.set c Cell.O).length = 9 := by rw [List.length_set]; exact hb
      have h5 := minimax_min_value_ge 4 a' bt' h4 h1 h2 h3
      rw [show (4 : Nat) + 1 = 5 from rfl] at h5
      push_cast at h5 ⊢
      linarith)
    (sortMoves (getValidMovesT b) true) negInf negInf none
    (mem_sortMoves.2 hcmem)
    (fun m hm hmc a' bt' => by
      have hmv : m ∈ getValidMovesT b := mem_sortMoves.1 hm
      obtain ⟨hcm, hwinm⟩ := x_threat_survives hb hcmem hcwin hmv hmc
      have h5 := minimax_min_shortcircuit 5 a' bt' ⟨c, hcm, hwinm⟩
      rw [h5]
      norm_num)
    (by rw [negInf, posInf]; omega)
    (by rw [negInf]; omega)

/-- C2 witness: on `X X 3 / O 5 6 / O 8 9` (O to move) the only X winning
cell is 2, and the engine blocks there. -/
theorem c2_blocks_unique_threat_witness :
    (getAiMove [Cell.X, Cell.X, Cell.E 3, Cell.O, Cell.E 5, Cell.E 6,
      Cell.O, Cell.E 8, Cell.E 9]).1 = some 2 :=
  c2_blocks_unique_threat
    [Cell.X, Cell.X, Cell.E 3, Cell.O, Cell.E 5, Cell.E 6, Cell.O, Cell.E 8, Cell.E 9]
    2 rfl (by decide) (by decide) (by decide) (by decide) (by decide) (by decide)

/-- C3: whenever the side to move (O, the maximizing side of `get_ai_move`)
has at least one one-move win on a board it has not already won, the search
engine returns a move that immediately completes a winning line for that
side: the returned cell lies on one of the 8 lines and placing O there makes
that whole line O. -/
theorem c3_takes_immediate_win (b : Board)
    (hOw : isWinner b Cell.O = false)
    (hwin : ∃ m ∈ getValidMovesT b, isWinner (b.set m Cell.O) Cell.O = true) :
    ∃ m, (getAiMove b).1 = some m ∧ m ∈ getValidMovesT b ∧
      ∃ l ∈ winLines, (m = l.1 ∨ m = l.2.1 ∨ m = l.2.2) ∧
        cellAt (b.set m Cell.O) l.1 = Cell.O ∧
        cellAt (b.set m Cell.O) l.2.1 = Cell.O ∧
        cellAt (b.set m Cell.O) l.2.2 = Cell.O := by
  obtain ⟨m', hm'⟩ := getWinningMove_some_of_exists hwin
  obtain ⟨hmem, hwinm⟩ := getWinningMove_some hm'
  refine ⟨m', ?_, hmem, ?_⟩
  · show (minimax 6 b negInf posInf true).1.2 = some m'
    rw [minimax, if_pos rfl]
    rcases hgw : getWinningMove b Cell.O with ⟨o, b1⟩
    rw [hgw] at hm'
    simp only at hm'
    subst hm'
    rfl
  · exact winner_line_through hwinm hOw

/-- C3 witness: on `O O 3 / X X 6 / 7 8 9` (O to move) the engine plays the
winning cell 2, completing the top row. -/
theorem c3_takes_immediate_win_witness :
    ∃ m, (getAiMove [Cell.O, Cell.O, Cell.E 3, Cell.X, Cell.X, Cell.E 6,
        Cell.E 7, Cell.E 8, Cell.E 9]).1 = some m ∧
      m ∈ getValidMovesT [Cell.O, Cell.O, Cell.E 3, Cell.X, Cell.X, Cell.E 6,
        Cell.E 7, Cell.E 8, Cell.E 9] ∧
      ∃ l ∈ winLines, (m = l.1 ∨ m = l.2.1 ∨ m = l.2.2) ∧
        cellAt ([Cell.O, Cell.O, Cell.E 3, Cell.X, Cell.X, Cell.E 6,
          Cell.E 7, Cell.E 8, Cell.E 9].set m Cell.O) l.1 = Cell.O ∧
        cellAt ([Cell.O, Cell.O, Cell.E 3, Cell.X, Cell.X, Cell.E 6,
          Cell.E 7, Cell.E 8, Cell.E 9].set m Cell.O) l.2.1 = Cell.O ∧
        cellAt ([Cell.O, Cell.O, Cell.E 3, Cell.X, Cell.X, Cell.E 6,
          Cell.E 7, Cell.E 8, Cell.E 9].set m Cell.O) l.2.2 = Cell.O :=
  c3_takes_immediate_win
    [Cell.O, Cell.O, Cell.E 3, Cell.X, Cell.X, Cell.E 6, Cell.E 7, Cell.E 8, Cell.E 9]
    (by decide) ⟨2, by decide, by decide⟩

/-- C5: the search recursion leaves the board exactly as it found it, on
every exit path: `minimax` (any depth, any alpha/beta, either side, hence
including all alpha-beta cutoff paths), the one-move-win scan
`get_winning_move`, and `get_ai_move` all return the board unchanged. -/
theorem c5_search_restores_board :
    ∀ (b : Board), (∀ (d : Nat) (a bt : Int) (mx : Bool), (minimax d b a bt mx).2 = b) ∧
      (∀ p, (getWinningMove b p).2 = b) ∧ (getAiMove b).2 = b :=
  fun b => ⟨fun d a bt mx => minimax_board d b a bt mx,
            fun p => getWinningMove_board b p,
            minimax_board 6 b negInf posInf true⟩

/-- C6: any move `get_ai_move` returns refers to a currently empty cell (it is
a member of the engine's valid-move list), and on a board with no valid moves
the engine returns no move (`none`) rather than failing. -/
theorem c6_ai_move_valid :
    ∀ (b : Board), (∀ m, (getAiMove b).1 = some m → m ∈ getValidMovesT b) ∧
      (getValidMovesT b = [] → (getAiMove b).1 = none) :=
  fun b => ⟨fun m h => minimax_best_mem 6 b negInf posInf true m h,
            fun h => minimax_no_moves h 6 negInf posInf true⟩

/-- C6 witness: on `X O X / X O O / O X 9` the engine returns the one empty
cell 8; on a full board it returns `none`. -/
theorem c6_ai_move_valid_witness :
    ((getAiMove [Cell.X, Cell.O, Cell.X, Cell.X, Cell.O, Cell.O,
        Cell.O, Cell.X, Cell.E 9]).1 = some 8 ∧
      8 ∈ getValidMovesT [Cell.X, Cell.O, Cell.X, Cell.X, Cell.O, Cell.O,
        Cell.O, Cell.X, Cell.E 9]) ∧
    (getValidMovesT [Cell.X, Cell.O, Cell.X, Cell.X, Cell.O, Cell.O,
        Cell.O, Cell.X, Cell.X] = [] ∧
      (getAiMove [Cell.X, Cell.O, Cell.X, Cell.X, Cell.O, Cell.O,
        Cell.O, Cell.X, Cell.X]).1 = none) :=
  ⟨⟨by decide,
    (c6_ai_move_valid [Cell.X, Cell.O, Cell.X, Cell.X, Cell.O, Cell.O,
      Cell.O, Cell.X, Cell.E 9]).1 8 (by decide)⟩,
   ⟨by decide,
    (c6_ai_move_valid [Cell.X, Cell.O, Cell.X, Cell.X, Cell.O, Cell.O,
      Cell.O, Cell.X, Cell.X]).2 (by decide)⟩⟩

/-- C7: on every reachable board, `check_winner` reports a side as winner
exactly when one of the 8 lines holds three identical markers of that side
(`is_winner`), reports a draw exactly when no line wins and no empty cell
remains, reports ongoing otherwise, and no reachable board has completed
lines of both sides. -/
theorem c7_check_winner_correct (b : Board) (p : Cell) (hr : Reachable b p) :
    (checkWinner b = GameState.X_WINS ↔ isWinner b Cell.X = true) ∧
    (checkWinner b = GameState.O_WINS ↔ isWinner b Cell.O = true) ∧
    (checkWinner b = GameState.DRAW ↔
      (isWinner b Cell.X = false ∧ isWinner b Cell.O = false ∧ isBoardFull b = true)) ∧
    (checkWinner b = GameState.ONGOING ↔
      (isWinner b Cell.X = false ∧ isWinner b Cell.O = false ∧ isBoardFull b = false)) ∧
    ¬(isWinner b Cell.X = true ∧ isWinner b Cell.O = true) := by
  have hnb := reachable_not_both hr
  cases hs : scanLines b winLines with
  | none =>
    obtain ⟨hnx, hno⟩ := scanLines_none_iff.1 hs
    have hcw : checkWinner b = if isBoardFull b then GameState.DRAW else GameState.ONGOING := by
      rw [checkWinner, hs]
    by_cases hF : isBoardFull b = true
    · rw [if_pos hF] at hcw
      refine ⟨?_, ?_, ?_, ?_, hnb⟩
      · constructor
        · intro h; rw [hcw] at h; cases h
        · intro h; rw [h] at hnx; cases hnx
      · constructor
        · intro h; rw [hcw] at h; cases h
        · intro h; rw [h] at hno; cases hno
      · exact ⟨fun _ => ⟨hnx, hno, hF⟩, fun _ => hcw⟩
      · constructor
        · intro h; rw [hcw] at h; cases h
        · rintro ⟨_, _, hf2⟩; rw [hF] at hf2; cases hf2
    · rw [if_neg hF] at hcw
      have hF' : isBoardFull b = false := by simpa using hF
      refine ⟨?_, ?_, ?_, ?_, hnb⟩
      · constructor
        · intro h; rw [hcw] at h; cases h
        · intro h; rw [h] at hnx; cases hnx
      · constructor
        · intro h; rw [hcw] at h; cases h
        · intro h; rw [h] at hno; cases hno
      · constructor
        · intro h; rw [hcw] at h; cases h
        · rintro ⟨_, _, hf2⟩; rw [hF'] at hf2; cases hf2
      · exact ⟨fun _ => ⟨hnx, hno, hF'⟩, fun _ => hcw⟩
  | some g =>
    rcases scanLines_some_line _ _ hs with ⟨hg, l, hl, hc⟩ | ⟨hg, l, hl, hc⟩
    · subst hg
      have hX : isWinner b Cell.X = true := isWinner_iff.2 ⟨l, hl, hc⟩
      have hO : isWinner b Cell.O = false := by
        by_contra hc2
        rw [Bool.not_eq_false] at hc2
        exact hnb ⟨hX, hc2⟩
      have hcw : checkWinner b = GameState.X_WINS := by rw [checkWinner, hs]
      refine ⟨⟨fun _ => hX, fun _ => hcw⟩, ?_, ?_, ?_, hnb⟩
      · constructor
        · intro h; rw [hcw] at h; cases h
        · intro h; rw [h] at hO; cases hO
      · constructor
        · intro h; rw [hcw] at h; cases h
        · rintro ⟨h1, _, _⟩; rw [hX] at h1; cases h1
      · constructor
        · intro h; rw [hcw] at h; cases h
        · rintro ⟨h1, _, _⟩; rw [hX] at h1; cases h1
    · subst hg
      have hO : isWinner b Cell.O = true := isWinner_iff.2 ⟨l, hl, hc⟩
      have hX : isWinner b Cell.X = false := by
        by_contra hc2
        rw [Bool.not_eq_false] at hc2
        exact hnb ⟨hc2, hO⟩
      have hcw : checkWinner b = GameState.O_WINS := by rw [checkWinner, hs]
      refine ⟨?_, ⟨fun _ => hO, fun _ => hcw⟩, ?_, ?_, hnb⟩
      · constructor
        · intro h; rw [hcw] at h; cases h
        · intro h; rw [h] at hX; cases hX
      · constructor
        · intro h; rw [hcw] at h; cases h
        · rintro ⟨_, h2, _⟩; rw [hO] at h2; cases h2
      · constructor
        · intro h; rw [hcw] at h; cases h
        · rintro ⟨_, h2, _⟩; rw [hO] at h2; cases h2

/-- C7 witness: the empty starting board is reachable, is reported ongoing,
and satisfies every equivalence. -/
theorem c7_check_winner_correct_witness :
    (checkWinner initBoard = GameState.X_WINS ↔ isWinner initBoard Cell.X = true) ∧
    (checkWinner initBoard = GameState.O_WINS ↔ isWinner initBoard Cell.O = true) ∧
    (checkWinner initBoard = GameState.DRAW ↔
      (isWinner initBoard Cell.X = false ∧ isWinner initBoard Cell.O = false ∧
        isBoardFull initBoard = true)) ∧
    (checkWinner initBoard = GameState.ONGOING ↔
      (isWinner initBoard Cell.X = false ∧ isWinner initBoard Cell.O = false ∧
        isBoardFull initBoard = false)) ∧
    ¬(isWinner initBoard Cell.X = true ∧ isWinner initBoard Cell.O = true) :=
  c7_check_winner_correct initBoard Cell.X Reachable.init

/-- C4: whenever a game run with a registered observer terminates, the
orchestrator invokes the observer's `learn` exactly once per recorded
(state, action) pair — the recorded history, one entry per applied move of
either side, mapped in chronological order — with `done = true` and a reward
depending only on the outcome: 0 on a draw and 1 on a win (that same terminal
reward goes to every recorded pair). -/
theorem c4_observer_learn_calls :
    ∀ (fuel : Nat) (p1 p2 : Board → Option Int) (b : Board) (cur : Cell)
      (hist : List (List Char × Int)) (gs : GameState) (hist' : List (List Char × Int))
      (calls : List LearnCall) (bf : Board),
      playGameAux p1 p2 true fuel b cur hist = some (gs, hist', calls, bf) →
      gs ≠ GameState.ONGOING ∧ hist' ≠ [] ∧
      calls = hist'.map (fun sa =>
        (sa.1, sa.2, if gs = GameState.DRAW then (0 : Int) else 1, getStateKey bf, true)) := by
  intro fuel
  induction fuel with
  | zero => intro _ _ _ _ _ _ _ _ _ h; cases h
  | succ fuel ih =>
    intro p1 p2 b cur hist gs hist' calls bf h
    rw [playGameAux] at h
    cases hmv : (if cur = Cell.X then p1 b else p2 b) with
    | none =>
      rw [hmv] at h
      exact ih _ _ _ _ _ _ _ _ _ h
    | some move =>
      rw [hmv] at h
      dsimp only at h
      by_cases hok : (makeMove b move cur).1 = true
      · rw [if_pos hok] at h
        have hne : hist ++ [(getStateKey (makeMove b move cur).2, move - 1)] ≠ [] := by
          simp
        cases hcw : checkWinner (makeMove b move cur).2 with
        | ONGOING =>
          rw [hcw] at h
          exact ih _ _ _ _ _ _ _ _ _ h
        | X_WINS =>
          rw [hcw] at h
          simp only [ne_eq, Option.some.injEq, Prod.mk.injEq, if_true, true_and] at h
          obtain ⟨hgs, hh, hc, hbf⟩ := h
          subst hgs hh hbf
          refine ⟨by decide, hne, ?_⟩
          rw [← hc, if_pos (show ¬(hist ++ [(getStateKey (makeMove b move cur).2, move - 1)] = []) from hne)]
        | O_WINS =>
          rw [hcw] at h
          simp only [ne_eq, Option.some.injEq, Prod.mk.injEq, if_true, true_and] at h
          obtain ⟨hgs, hh, hc, hbf⟩ := h
          subst hgs hh hbf
          refine ⟨by decide, hne, ?_⟩
          rw [← hc, if_pos (show ¬(hist ++ [(getStateKey (makeMove b move cur).2, move - 1)] = []) from hne)]
        | DRAW =>
          rw [hcw] at h
          simp only [ne_eq, Option.some.injEq, Prod.mk.injEq, if_true, true_and] at h
          obtain ⟨hgs, hh, hc, hbf⟩ := h
          subst hgs hh hbf
          refine ⟨by decide, hne, ?_⟩
          rw [← hc, if_pos (show ¬(hist ++ [(getStateKey (makeMove b move cur).2, move - 1)] = []) from hne)]
          simp
      · rw [if_neg hok] at h
        exact ih _ _ _ _ _ _ _ _ _ h

/-- C4 witness: a one-move game (X completes the top row of
`X X 3 / O O 6 / 7 8 9`) issues exactly one `learn` call, for the recorded
pair, with reward 1 and `done = true`. -/
theorem c4_observer_learn_calls_witness :
    GameState.X_WINS ≠ GameState.ONGOING ∧
    ([(['X','X','X','O','O','6','7','8','9'], (2 : Int))] :
        List (List Char × Int)) ≠ [] ∧
    ([(['X','X','X','O','O','6','7','8','9'], (2 : Int), (1 : Int),
        ['X','X','X','O','O','6','7','8','9'], true)] : List LearnCall) =
      ([(['X','X','X','O','O','6','7','8','9'], (2 : Int))] :
          List (List Char × Int)).map
        (fun sa => (sa.1, sa.2,
          if GameState.X_WINS = GameState.DRAW then (0 : Int) else 1,
          getStateKey [Cell.X, Cell.X, Cell.X, Cell.O, Cell.O, Cell.E 6,
            Cell.E 7, Cell.E 8, Cell.E 9], true)) :=
  c4_observer_learn_calls 1 (fun _ => some 3) (fun _ => none)
    [Cell.X, Cell.X, Cell.E 3, Cell.O, Cell.O, Cell.E 6, Cell.E 7, Cell.E 8, Cell.E 9]
    Cell.X [] GameState.X_WINS
    [(['X','X','X','O','O','6','7','8','9'], 2)]
    [(['X','X','X','O','O','6','7','8','9'], 2, 1, ['X','X','X','O','O','6','7','8','9'], true)]
    [Cell.X, Cell.X, Cell.X, Cell.O, Cell.O, Cell.E 6, Cell.E 7, Cell.E 8, Cell.E 9]
    (by decide)

/-- C10: when the active side supplies no move or an invalid one (out-of-range
or occupied cell), `make_move` reports failure with the board unchanged, and
the loop re-enters the next iteration with the same board, the same side to
move, and the same history — the turn does not switch. -/
theorem c10_invalid_move_keeps_turn :
    ∀ (p1 p2 : Board → Option Int) (obs : Bool) (fuel : Nat) (b : Board) (cur : Cell)
      (hist : List (List Char × Int)),
      ((if cur = Cell.X then p1 b else p2 b) = none →
        playGameAux p1 p2 obs (fuel + 1) b cur hist =
          playGameAux p1 p2 obs fuel b cur hist) ∧
      (∀ move, (if cur = Cell.X then p1 b else p2 b) = some move →
        (makeMove b move cur).1 = false →
        (makeMove b move cur).2 = b ∧
        playGameAux p1 p2 obs (fuel + 1) b cur hist =
          playGameAux p1 p2 obs fuel b cur hist) := by
  intro p1 p2 obs fuel b cur hist
  constructor
  · intro h
    rw [playGameAux, h]
  · intro move hmv hfail
    have hbeq := makeMove_false_eq hfail
    refine ⟨hbeq, ?_⟩
    rw [playGameAux, hmv]
    dsimp only
    rw [if_neg (by simp [hfail])]
    rw [hbeq]

/-- C10 witness: with X to move on a board whose cell 1 is taken, a provider
that answers 1 fails and the loop retries with board, side and history
unchanged. -/
theorem c10_invalid_move_keeps_turn_witness :
    (makeMove [Cell.X, Cell.E 2, Cell.E 3, Cell.E 4, Cell.E 5, Cell.E 6,
        Cell.E 7, Cell.E 8, Cell.E 9] 1 Cell.X).2 =
      [Cell.X, Cell.E 2, Cell.E 3, Cell.E 4, Cell.E 5, Cell.E 6,
        Cell.E 7, Cell.E 8, Cell.E 9] ∧
    playGameAux (fun _ => some 1) (fun _ => none) true 1
        [Cell.X, Cell.E 2, Cell.E 3, Cell.E 4, Cell.E 5, Cell.E 6,
          Cell.E 7, Cell.E 8, Cell.E 9] Cell.X [] =
      playGameAux (fun _ => some 1) (fun _ => none) true 0
        [Cell.X, Cell.E 2, Cell.E 3, Cell.E 4, Cell.E 5, Cell.E 6,
          Cell.E 7, Cell.E 8, Cell.E 9] Cell.X [] :=
  (c10_invalid_move_keeps_turn (fun _ => some 1) (fun _ => none) true 0
    [Cell.X, Cell.E 2, Cell.E 3, Cell.E 4, Cell.E 5, Cell.E 6,
      Cell.E 7, Cell.E 8, Cell.E 9] Cell.X []).2 1 rfl (by decide)

/-! ## Helper lemmas : state keys contain no space character -/

set_option maxHeartbeats 1000000 in
lemma cellChar_ne_space : ∀ c : Cell, cellChar c ≠ ' ' := by
  intro c
  cases c with
  | X => decide
  | O => decide
  | E n =>
    show Nat.digitChar n ≠ ' '
    by_cases h : n < 16
    · interval_cases n <;> decide
    · unfold Nat.digitChar
      rw [if_neg (show ¬(n = 0) from by omega), if_neg (show ¬(n = 1) from by omega), if_neg (show ¬(n = 2) from by omega), if_neg (show ¬(n = 3) from by omega), if_neg (show ¬(n = 4) from by omega), if_neg (show ¬(n = 5) from by omega), if_neg (show ¬(n = 6) from by omega), if_neg (show ¬(n = 7) from by omega), if_neg (show ¬(n = 8) from by omega), if_neg (show ¬(n = 9) from by omega), if_neg (show ¬(n = 10) from by omega), if_neg (show ¬(n = 11) from by omega), if_neg (show ¬(n = 12) from by omega), if_neg (show ¬(n = 13) from by omega), if_neg (show ¬(n = 14) from by omega), if_neg (show ¬(n = 15) from by omega)]
      decide

lemma spacePositions_stateKey (b : Board) : ∀ i, spacePositions (getStateKey b) i = [] := by
  induction b with
  | nil => intro i; rfl
  | cons c rest ih =>
    intro i
    show (if cellChar c = ' ' then i :: spacePositions (getStateKey rest) (i + 1)
          else spacePositions (getStateKey rest) (i + 1)) = []
    rw [if_neg (cellChar_ne_space c)]
    exact ih (i + 1)

lemma emptyPositions_stateKey (b : Board) : emptyPositions (getStateKey b) = [] :=
  spacePositions_stateKey b 0

/-- C1: `learn` looks for `' '` characters to find the valid actions of
`next_state`, but `Board.get_state_key` serializes empty cells as digit
characters, so for every state key the agent ever sees the continuation term
`gamma * next_max` is identically 0 — the non-terminal update never consults
the stored Q-values of the successor state.  Concretely, with
`alpha = 1/10`, `gamma = 19/20`, a successor board with eight empty cells and
a Q-table holding 1 everywhere, the update claimed by the spec
(`specLearnValue`) yields 199/200 while the code yields 9/10. -/
theorem c1_next_max_never_found :
    (∀ (ag : Agent) (s : List Char) (a : Int) (r : ℚ) (b : Board),
      (learn ag s a r (getStateKey b) false).q (s, a) =
        ag.q (s, a) + ag.lr * (r + ag.gamma * 0 - ag.q (s, a))) ∧
    (getValidMoves [Cell.E 1, Cell.E 2, Cell.E 3, Cell.E 4, Cell.E 5, Cell.E 6,
        Cell.E 7, Cell.E 8, Cell.X] ≠ [] ∧
      (learn ⟨1/10, 19/20, 1/10, fun _ => 1, 0⟩ (getStateKey initBoard) 0 0
        (getStateKey [Cell.E 1, Cell.E 2, Cell.E 3, Cell.E 4, Cell.E 5, Cell.E 6,
          Cell.E 7, Cell.E 8, Cell.X]) false).q (getStateKey initBoard, 0) = 9/10 ∧
      specLearnValue ⟨1/10, 19/20, 1/10, fun _ => 1, 0⟩ (getStateKey initBoard) 0 0
        (getStateKey [Cell.E 1, Cell.E 2, Cell.E 3, Cell.E 4, Cell.E 5, Cell.E 6,
          Cell.E 7, Cell.E 8, Cell.X]) = 199/200 ∧
      (9/10 : ℚ) ≠ 199/200) := by
  have hgen : ∀ (ag : Agent) (s : List Char) (a : Int) (r : ℚ) (b : Board),
      (learn ag s a r (getStateKey b) false).q (s, a) =
        ag.q (s, a) + ag.lr * (r + ag.gamma * 0 - ag.q (s, a)) := by
    intro ag s a r b
    rw [learn]
    dsimp only
    rw [emptyPositions_stateKey]
    rw [if_pos (show ((s, a) = (s, a)) from rfl)]
    rw [if_neg (show ¬(false = true) from by simp)]
    rw [if_neg (show ¬(([] : List Nat) ≠ []) from by simp)]
  refine ⟨hgen, by decide, ?_, ?_, by norm_num⟩
  · rw [hgen]
    norm_num
  · rw [specLearnValue, specNextMax]
    dsimp only
    rw [show specEmptyPositions (getStateKey [Cell.E 1, Cell.E 2, Cell.E 3, Cell.E 4,
      Cell.E 5, Cell.E 6, Cell.E 7, Cell.E 8, Cell.X]) 0 = [0, 1, 2, 3, 4, 5, 6, 7]
      from by decide]
    rw [if_pos (show ([0, 1, 2, 3, 4, 5, 6, 7] : List Nat) ≠ [] from by simp)]
    norm_num [listMax, List.map]

/-- C8: the TicToc move-provider adapters of `play.py` and
`human_vs_tictoc.py` call `get_best_move`, an attribute the `TicTacToe` class
does not define (its search entry point is `get_ai_move`), so on every board
both adapters raise `AttributeError` and never return a move. -/
theorem c8_tictoc_adapter_always_errors :
    (∀ b : Board, getTictocMovePlay b =
      Except.error "AttributeError: TicTacToe object has no attribute get_best_move") ∧
    (∀ b : Board, getTictocMoveHvt b =
      Except.error "AttributeError: TicTacToe object has no attribute get_best_move") ∧
    ticTacToeHasAttr "get_best_move" = false ∧
    ticTacToeHasAttr "get_ai_move" = true := by
  refine ⟨fun b => ?_, fun b => ?_, by decide, by decide⟩
  · rw [getTictocMovePlay, if_neg (by decide)]
  · rw [getTictocMoveHvt, if_neg (by decide)]

/-- C9: the persisted-state load paths never raise to the caller.  A missing
Q-table file and a file that fails to unpickle both fall back to the empty
(all-zero) table with the matching diagnostic; a well-formed file installs the
table; a failed full-agent load keeps the agent usable with its
hyperparameters intact, reports the error and falls back to the
Q-table-only path. -/
theorem c9_load_never_fails :
    (∀ parsed, (∀ k, (loadQTable false parsed).1 k = 0) ∧
      (loadQTable false parsed).2 = LoadDiag.noExistingTable) ∧
    ((∀ k, (loadQTable true none).1 k = 0) ∧
      (loadQTable true none).2 = LoadDiag.errorLoadingTable) ∧
    (∀ tbl, (loadQTable true (some tbl)).1 = tableToQ tbl ∧
      (loadQTable true (some tbl)).2 = LoadDiag.loadedTable) ∧
    (∀ ag qtExists qtParsed,
      (loadAgent ag none qtExists qtParsed).1.q = (loadQTable qtExists qtParsed).1 ∧
      (loadAgent ag none qtExists qtParsed).2 =
        [LoadDiag.errorLoadingAgent, (loadQTable qtExists qtParsed).2] ∧
      (loadAgent ag none qtExists qtParsed).1.lr = ag.lr ∧
      (loadAgent ag none qtExists qtParsed).1.gamma = ag.gamma ∧
      (loadAgent ag none qtExists qtParsed).1.epsilon = ag.epsilon) ∧
    (∀ ag d qtExists qtParsed,
      (loadAgent ag (some d) qtExists qtParsed).1.q = tableToQ d.qTable ∧
      (loadAgent ag (some d) qtExists qtParsed).2 = [LoadDiag.agentLoaded]) :=
  ⟨fun _ => ⟨fun _ => rfl, rfl⟩,
   ⟨fun _ => rfl, rfl⟩,
   fun _ => ⟨rfl, rfl⟩,
   fun _ _ _ => ⟨rfl, rfl, rfl, rfl, rfl⟩,
   fun _ _ _ _ => ⟨rfl, rfl⟩⟩

end TicTacToeRepo
